import Mathlib

/-!
Shallow embedding of the `mezmo_reduce` transform
(`src/transforms/reduce/mezmo_reduce.rs`) of the `aholmberg/vector`
repository, together with theorems settling the frozen claims about it.

Conventions of the embedding:
* `Value` mirrors the event value type (`value::Value`): booleans,
  64-bit signed integers, byte-strings, timestamps (modelled as an `Int`
  instant), arrays, objects and null.  Floating-point leaves are outside
  the modelled fragment (no claim depends on them).
* Log events (`LogEvent`) are their root `Value`; metadata is not
  modelled (no claim depends on it).
* Rust `usize` arithmetic is modelled as `Nat` arithmetic modulo
  `2 ^ 64` (release-build wrapping semantics), written `wAdd` / `wSub`.
* `chrono` date parsing and formatting are external to the repository;
  they enter the model as an abstract `Chrono` record of a parse and a
  format function, passed explicitly.
* Map types (`HashMap`, `BTreeMap`, the shared `date_kinds` map) are
  modelled as association lists with lookup / replace-or-append insert /
  erase; Rust's hash-iteration order becomes list order (where a claim
  could depend on iteration order this is noted at the claim).
* Code that can panic (`expect`, `unwrap`) is modelled in the `Option`
  monad: a `none` result marks a panic of the original code.
-/

namespace MezmoReduce

/-- Event values, after `value::Value` (float leaves omitted, see header). -/
inductive Value where
  | null
  | bool (b : Bool)
  | int (i : Int)
  | bytes (s : String)
  | timestamp (t : Int)
  | array (xs : List Value)
  | object (fs : List (String × Value))
deriving Repr

mutual

def valueDecEq : (a b : Value) → Decidable (a = b)
  | .null, .null => isTrue rfl
  | .bool a, .bool b =>
    match decEq a b with
    | isTrue h => isTrue (by rw [h])
    | isFalse h => isFalse (by intro hh; cases hh; exact h rfl)
  | .int a, .int b =>
    match decEq a b with
    | isTrue h => isTrue (by rw [h])
    | isFalse h => isFalse (by intro hh; cases hh; exact h rfl)
  | .bytes a, .bytes b =>
    match decEq a b with
    | isTrue h => isTrue (by rw [h])
    | isFalse h => isFalse (by intro hh; cases hh; exact h rfl)
  | .timestamp a, .timestamp b =>
    match decEq a b with
    | isTrue h => isTrue (by rw [h])
    | isFalse h => isFalse (by intro hh; cases hh; exact h rfl)
  | .array xs, .array ys =>
    match valueListDecEq xs ys with
    | isTrue h => isTrue (by rw [h])
    | isFalse h => isFalse (by intro hh; cases hh; exact h rfl)
  | .object fs, .object gs =>
    match valueFieldsDecEq fs gs with
    | isTrue h => isTrue (by rw [h])
    | isFalse h => isFalse (by intro hh; cases hh; exact h rfl)
  | .null, .bool _ => isFalse (by intro h; exact Value.noConfusion h)
  | .null, .int _ => isFalse (by intro h; exact Value.noConfusion h)
  | .null, .bytes _ => isFalse (by intro h; exact Value.noConfusion h)
  | .null, .timestamp _ => isFalse (by intro h; exact Value.noConfusion h)
  | .null, .array _ => isFalse (by intro h; exact Value.noConfusion h)
  | .null, .object _ => isFalse (by intro h; exact Value.noConfusion h)
  | .bool _, .null => isFalse (by intro h; exact Value.noConfusion h)
  | .bool _, .int _ => isFalse (by intro h; exact Value.noConfusion h)
  | .bool _, .bytes _ => isFalse (by intro h; exact Value.noConfusion h)
  | .bool _, .timestamp _ => isFalse (by intro h; exact Value.noConfusion h)
  | .bool _, .array _ => isFalse (by intro h; exact Value.noConfusion h)
  | .bool _, .object _ => isFalse (by intro h; exact Value.noConfusion h)
  | .int _, .null => isFalse (by intro h; exact Value.noConfusion h)
  | .int _, .bool _ => isFalse (by intro h; exact Value.noConfusion h)
  | .int _, .bytes _ => isFalse (by intro h; exact Value.noConfusion h)
  | .int _, .timestamp _ => isFalse (by intro h; exact Value.noConfusion h)
  | .int _, .array _ => isFalse (by intro h; exact Value.noConfusion h)
  | .int _, .object _ => isFalse (by intro h; exact Value.noConfusion h)
  | .bytes _, .null => isFalse (by intro h; exact Value.noConfusion h)
  | .bytes _, .bool _ => isFalse (by intro h; exact Value.noConfusion h)
  | .bytes _, .int _ => isFalse (by intro h; exact Value.noConfusion h)
  | .bytes _, .timestamp _ => isFalse (by intro h; exact Value.noConfusion h)
  | .bytes _, .array _ => isFalse (by intro h; exact Value.noConfusion h)
  | .bytes _, .object _ => isFalse (by intro h; exact Value.noConfusion h)
  | .timestamp _, .null => isFalse (by intro h; exact Value.noConfusion h)
  | .timestamp _, .bool _ => isFalse (by intro h; exact Value.noConfusion h)
  | .timestamp _, .int _ => isFalse (by intro h; exact Value.noConfusion h)
  | .timestamp _, .bytes _ => isFalse (by intro h; exact Value.noConfusion h)
  | .timestamp _, .array _ => isFalse (by intro h; exact Value.noConfusion h)
  | .timestamp _, .object _ => isFalse (by intro h; exact Value.noConfusion h)
  | .array _, .null => isFalse (by intro h; exact Value.noConfusion h)
  | .array _, .bool _ => isFalse (by intro h; exact Value.noConfusion h)
  | .array _, .int _ => isFalse (by intro h; exact Value.noConfusion h)
  | .array _, .bytes _ => isFalse (by intro h; exact Value.noConfusion h)
  | .array _, .timestamp _ => isFalse (by intro h; exact Value.noConfusion h)
  | .array _, .object _ => isFalse (by intro h; exact Value.noConfusion h)
  | .object _, .null => isFalse (by intro h; exact Value.noConfusion h)
  | .object _, .bool _ => isFalse (by intro h; exact Value.noConfusion h)
  | .object _, .int _ => isFalse (by intro h; exact Value.noConfusion h)
  | .object _, .bytes _ => isFalse (by intro h; exact Value.noConfusion h)
  | .object _, .timestamp _ => isFalse (by intro h; exact Value.noConfusion h)
  | .object _, .array _ => isFalse (by intro h; exact Value.noConfusion h)

def valueListDecEq : (a b : List Value) → Decidable (a = b)
  | [], [] => isTrue rfl
  | [], _ :: _ => isFalse (by intro h; exact List.noConfusion h)
  | _ :: _, [] => isFalse (by intro h; exact List.noConfusion h)
  | x :: xs, y :: ys =>
    match valueDecEq x y, valueListDecEq xs ys with
    | isTrue h1, isTrue h2 => isTrue (by rw [h1, h2])
    | isFalse h1, _ => isFalse (by intro hh; cases hh; exact h1 rfl)
    | _, isFalse h2 => isFalse (by intro hh; cases hh; exact h2 rfl)

def valueFieldsDecEq : (a b : List (String × Value)) → Decidable (a = b)
  | [], [] => isTrue rfl
  | [], _ :: _ => isFalse (by intro h; exact List.noConfusion h)
  | _ :: _, [] => isFalse (by intro h; exact List.noConfusion h)
  | (k1, v1) :: xs, (k2, v2) :: ys =>
    match decEq k1 k2, valueDecEq v1 v2, valueFieldsDecEq xs ys with
    | isTrue h0, isTrue h1, isTrue h2 => isTrue (by rw [h0, h1, h2])
    | isFalse h0, _, _ => isFalse (by intro hh; cases hh; exact h0 rfl)
    | _, isFalse h1, _ => isFalse (by intro hh; cases hh; exact h1 rfl)
    | _, _, isFalse h2 => isFalse (by intro hh; cases hh; exact h2 rfl)

end

instance : DecidableEq Value := valueDecEq

/-- Association-list lookup (first binding wins), the model of map lookup. -/
def lookupKV {α β : Type} [DecidableEq α] : List (α × β) → α → Option β
  | [], _ => none
  | (k, v) :: rest, key => if k = key then some v else lookupKV rest key

/-- Association-list insert: replace the first binding in place, else append. -/
def insertKV {α β : Type} [DecidableEq α] : List (α × β) → α → β → List (α × β)
  | [], key, v => [(key, v)]
  | (k, w) :: rest, key, v =>
    if k = key then (k, v) :: rest else (k, w) :: insertKV rest key v

/-- Association-list erase of the first binding for a key. -/
def eraseKV {α β : Type} [DecidableEq α] : List (α × β) → α → List (α × β)
  | [], _ => []
  | (k, w) :: rest, key => if k = key then rest else (k, w) :: eraseKV rest key

namespace Value

/-- Top-level field access of an event value (`Value::get` on a plain key). -/
def getKey : Value → String → Option Value
  | .object fs, k => lookupKV fs k
  | _, _ => none

/-- Top-level field insert of an event value (`Value::insert` on a plain key). -/
def insertKey : Value → String → Value → Value
  | .object fs, k, v => .object (insertKV fs k v)
  | other, _, _ => other

/-- Top-level field removal; returns the removed value and the remaining
event (`LogEvent::remove`). -/
def removeKey : Value → String → Option Value × Value
  | .object fs, k => (lookupKV fs k, .object (eraseKV fs k))
  | other, _ => (none, other)

/-- Runtime kind name of a value (`Value::kind_str`); byte-strings report
as `string`, integers as `integer`. -/
def kindStr : Value → String
  | .null => "null"
  | .bool _ => "boolean"
  | .int _ => "integer"
  | .bytes _ => "string"
  | .timestamp _ => "timestamp"
  | .array _ => "array"
  | .object _ => "map"

/-- Lossy string rendering (`Value::to_string_lossy`): byte-strings pass
through, integers become their decimal form.  Only those two cases are
semantically load-bearing; the rest get a tagged rendering. -/
def toStringLossy : Value → String
  | .bytes s => s
  | .int n => toString n
  | .bool b => toString b
  | .timestamp t => "<timestamp " ++ toString t ++ ">"
  | .null => "<null>"
  | .array _ => "<array>"
  | .object _ => "<object>"

end Value

/-- The `usize` modulus: Rust target word width is 64 bits. -/
def W : Nat := 2 ^ 64

/-- Wrapping `usize` addition (release-build `+` / `+=` semantics). -/
def wAdd (a b : Nat) : Nat := (a + b) % W

/-- Wrapping `usize` subtraction (release-build `-` semantics). -/
def wSub (a b : Nat) : Nat := (a % W + (W - b % W)) % W

instance : NeZero W := ⟨by simp [W]⟩

/-- Signed 64-bit bounds, for `i64` parsing and saturating arithmetic. -/
def i64Min : Int := -(2 ^ 63)

def i64Max : Int := 2 ^ 63 - 1

/-- Saturating `i64` addition (the spec's `sum` integer overflow policy). -/
def i64SatAdd (a b : Int) : Int :=
  if a + b > i64Max then i64Max else if a + b < i64Min then i64Min else a + b

/-- Accumulate decimal digits; any non-digit character fails. -/
def parseDigits : List Char → Nat → Option Nat
  | [], acc => some acc
  | c :: cs, acc =>
    if c.isDigit then parseDigits cs (acc * 10 + (c.toNat - 48)) else none

/-- Parse a non-empty all-digit string as a natural number
(`str::parse::<usize>` without sign handling). -/
def parseNatStr (s : String) : Option Nat :=
  match s.data with
  | [] => none
  | cs => parseDigits cs 0

/-- Parse a decimal integer with an optional leading sign
(`str::parse` digit handling). -/
def parseIntStr (s : String) : Option Int :=
  match s.data with
  | [] => none
  | '-' :: cs =>
    match cs with
    | [] => none
    | _ => (parseDigits cs 0).map (fun n => -(n : Int))
  | '+' :: cs =>
    match cs with
    | [] => none
    | _ => (parseDigits cs 0).map (fun n => (n : Int))
  | cs => (parseDigits cs 0).map (fun n => (n : Int))

/-- Parse a string as a signed 64-bit integer (`str::parse::<i64>`):
digits with an optional sign, and the result must lie in `i64` range. -/
def parseI64 (s : String) : Option Int :=
  match parseIntStr s with
  | some n => if i64Min ≤ n ∧ n ≤ i64Max then some n else none
  | none => none

mutual

/-- Modelled from the spec: the byte-size estimate of a stored value, the
quantity `size_estimate()` is built from in `merge_strategy.rs` (which is
not under `src/`).  The spec only requires a stable estimate reflecting
the dominant storage (string bytes, array element sizes). -/
def valueSize : Value → Nat
  | .null => 1
  | .bool _ => 1
  | .int _ => 8
  | .bytes s => s.length
  | .timestamp _ => 8
  | .array xs => valueListSize xs
  | .object fs => valueFieldsSize fs

def valueListSize : List Value → Nat
  | [] => 0
  | x :: xs => valueSize x + valueListSize xs

def valueFieldsSize : List (String × Value) → Nat
  | [] => 0
  | (k, v) :: fs => k.length + valueSize v + valueFieldsSize fs

end

/-- The merge strategies of the configuration enum `MergeStrategy`. -/
inductive MergeStrategy where
  | discard
  | retain
  | sum
  | max
  | min
  | array
  | concat
  | concatNewline
  | concatRaw
  | shortestArray
  | longestArray
  | flatUnique
deriving DecidableEq, Repr

/-- Modelled from the spec: the per-field accumulators of
`merge_strategy.rs` (`ReduceValueMerger` implementations), which is not
under `src/`.  One variant per strategy, plus the default timestamp
window merger that tracks the first and last observed timestamp. -/
inductive Merger where
  | discard (v : Value)
  | retain (v : Value)
  | sumM (n : Int)
  | maxM (n : Int)
  | minM (n : Int)
  | arrayM (xs : List Value)
  | concatM (acc : Value)
  | concatNewlineM (s : String)
  | concatRawM (s : String)
  | shortestArrayM (xs : List Value)
  | longestArrayM (xs : List Value)
  | flatUniqueM (xs : List Value)
  | timestampWindow (first last : Int)
deriving DecidableEq, Repr

/-- Modelled from the spec: `get_value_merger(v, strategy)` of
`merge_strategy.rs` — create a merger from an initial value, failing on
an incompatible initial type. -/
def getValueMerger (v : Value) : MergeStrategy → Except String Merger
  | .discard => .ok (.discard v)
  | .retain => .ok (.retain v)
  | .sum =>
    match v with
    | .int n => .ok (.sumM n)
    | _ => .error "sum: expected number"
  | .max =>
    match v with
    | .int n => .ok (.maxM n)
    | _ => .error "max: expected number"
  | .min =>
    match v with
    | .int n => .ok (.minM n)
    | _ => .error "min: expected number"
  | .array => .ok (.arrayM [v])
  | .concat =>
    match v with
    | .bytes s => .ok (.concatM (.bytes s))
    | .array xs => .ok (.concatM (.array xs))
    | _ => .error "concat: expected string or array"
  | .concatNewline =>
    match v with
    | .bytes s => .ok (.concatNewlineM s)
    | _ => .error "concat_newline: expected string"
  | .concatRaw =>
    match v with
    | .bytes s => .ok (.concatRawM s)
    | _ => .error "concat_raw: expected string"
  | .shortestArray =>
    match v with
    | .array xs => .ok (.shortestArrayM xs)
    | _ => .error "shortest_array: expected array"
  | .longestArray =>
    match v with
    | .array xs => .ok (.longestArrayM xs)
    | _ => .error "longest_array: expected array"
  | .flatUnique =>
    match v with
    | .array xs => .ok (.flatUniqueM (xs.foldl (fun acc x => if x ∈ acc then acc else acc ++ [x]) []))
    | .object fs => .ok (.flatUniqueM (fs.foldl (fun acc kv => if kv.2 ∈ acc then acc else acc ++ [kv.2]) []))
    | _ => .ok (.flatUniqueM [v])

/-- Modelled from the spec: the `From<Value>` default-strategy conversion
of `merge_strategy.rs`: numeric fields sum, timestamp fields keep the
first and track the last for a `_end` sibling, everything else keeps the
first value. -/
def defaultMerger : Value → Merger
  | .int n => .sumM n
  | .timestamp t => .timestampWindow t t
  | v => .discard v

/-- Modelled from the spec: fold the elements contributed by one value
into a `flat_unique` accumulator (scalars contribute themselves, arrays
their elements, objects their values), deduplicated by value equality. -/
def flatUniqueAdd (acc : List Value) (v : Value) : List Value :=
  match v with
  | .array xs => xs.foldl (fun a x => if x ∈ a then a else a ++ [x]) acc
  | .object fs => fs.foldl (fun a kv => if kv.2 ∈ a then a else a ++ [kv.2]) acc
  | x => if x ∈ acc then acc else acc ++ [x]

/-- Modelled from the spec: `ReduceValueMerger::add`.  Incompatible
values produce an error and the merger is returned unchanged by the
caller (the spec requires the merger to remain valid and unchanged on
failure). -/
def Merger.add : Merger → Value → Except String Merger
  | .discard v, _ => .ok (.discard v)
  | .retain _, v => .ok (.retain v)
  | .sumM n, v =>
    match v with
    | .int m => .ok (.sumM (i64SatAdd n m))
    | _ => .error "sum: expected number"
  | .maxM n, v =>
    match v with
    | .int m => .ok (.maxM (Max.max n m))
    | _ => .error "max: expected number"
  | .minM n, v =>
    match v with
    | .int m => .ok (.minM (Min.min n m))
    | _ => .error "min: expected number"
  | .arrayM xs, v => .ok (.arrayM (xs ++ [v]))
  | .concatM acc, v =>
    match acc, v with
    | .bytes a, .bytes b => .ok (.concatM (.bytes (a ++ " " ++ b)))
    | .array xs, .array ys => .ok (.concatM (.array (xs ++ ys)))
    | .array xs, w => .ok (.concatM (.array (xs ++ [w])))
    | _, _ => .error "concat: incompatible type"
  | .concatNewlineM s, v =>
    match v with
    | .bytes b => .ok (.concatNewlineM (s ++ "\n" ++ b))
    | _ => .error "concat_newline: expected string"
  | .concatRawM s, v =>
    match v with
    | .bytes b => .ok (.concatRawM (s ++ b))
    | _ => .error "concat_raw: expected string"
  | .shortestArrayM xs, v =>
    match v with
    | .array ys => .ok (.shortestArrayM (if ys.length < xs.length then ys else xs))
    | _ => .error "shortest_array: expected array"
  | .longestArrayM xs, v =>
    match v with
    | .array ys => .ok (.longestArrayM (if ys.length > xs.length then ys else xs))
    | _ => .error "longest_array: expected array"
  | .flatUniqueM xs, v => .ok (.flatUniqueM (flatUniqueAdd xs v))
  | .timestampWindow f _, v =>
    match v with
    | .timestamp t => .ok (.timestampWindow f t)
    | _ => .error "timestamp window: expected timestamp"

/-- Modelled from the spec: `ReduceValueMerger::size_estimate`, the
merger's current contribution to the group byte budget. -/
def Merger.sizeEstimate : Merger → Nat
  | .discard v => valueSize v
  | .retain v => valueSize v
  | .sumM _ => 8
  | .maxM _ => 8
  | .minM _ => 8
  | .arrayM xs => valueListSize xs
  | .concatM acc => valueSize acc
  | .concatNewlineM s => s.length
  | .concatRawM s => s.length
  | .shortestArrayM xs => valueListSize xs
  | .longestArrayM xs => valueListSize xs
  | .flatUniqueM xs => valueListSize xs
  | .timestampWindow _ _ => 16

/-- Modelled from the spec: the value a merger materializes on
`finalize` (for every variant except the timestamp window, which writes
two keys — see `Merger.writeInto`). -/
def Merger.materialize : Merger → Value
  | .discard v => v
  | .retain v => v
  | .sumM n => .int n
  | .maxM n => .int n
  | .minM n => .int n
  | .arrayM xs => .array xs
  | .concatM acc => acc
  | .concatNewlineM s => .bytes s
  | .concatRawM s => .bytes s
  | .shortestArrayM xs => .array xs
  | .longestArrayM xs => .array xs
  | .flatUniqueM xs => .array xs
  | .timestampWindow f _ => .timestamp f

/-- Modelled from the spec: `insert_into` — write the merged value into
an output field map at the given key; the timestamp window additionally
writes the `<key>_end` sibling holding the last observed timestamp. -/
def Merger.writeInto (m : Merger) (k : String) (fs : List (String × Value)) :
    List (String × Value) :=
  match m with
  | .timestampWindow f l =>
    insertKV (insertKV fs k (.timestamp f)) (k ++ "_end") (.timestamp l)
  | m => insertKV fs k m.materialize

/-- The external `chrono` date machinery, abstracted: a parse function
(format, rendered input → instant) and a format function
(format, instant → rendered output).  Both are explicit parameters of
the embedding; theorems hold for every choice. -/
structure Chrono where
  parse : String → String → Option Int
  format : String → Int → String

/-- `MezmoMetadata::save_date_kind`: record the representation kind for a
date property, first observation wins (never overwritten). -/
def saveDateKind (kinds : List (String × String)) (p k : String) :
    List (String × String) :=
  match lookupKV kinds p with
  | some _ => kinds
  | none => insertKV kinds p k

/-- The per-group accumulator `ReduceState`.  The shared
`MezmoMetadata::date_kinds` map (an `Arc<RwLock<..>>` owned by the
reducer and shared by every state) lives in the reducer of the model and
is passed to `flush`; the state carries the `date_formats` part of the
metadata.  Event metadata (finalizers) is not modelled. -/
structure ReduceState where
  fields : List (String × Merger)
  messageFields : List (String × Merger)
  startedAt : Nat
  dateFormats : List (String × String)
  sizeEstimate : Nat
deriving Repr

/-- One step of the message-field construction loop of
`ReduceState::new`: `group_by` keys are force-assigned a discard merger
(`get_value_merger(v, Discard)` never fails) and are not added to the
size estimate; other keys consult the strategy table (a failing merger
construction drops the field) or fall back to the default merger, and
their estimate is added to the running (wrapping) size. -/
def newMsgStep (strategies : List (String × MergeStrategy)) (groupBy : List String)
    (acc : List (String × Merger) × Nat) (kv : String × Value) :
    List (String × Merger) × Nat :=
  let (fs, size) := acc
  if groupBy.contains kv.1 then
    (fs ++ [(kv.1, Merger.discard kv.2)], size)
  else
    match lookupKV strategies kv.1 with
    | some strat =>
      match getValueMerger kv.2 strat with
      | .ok m => (fs ++ [(kv.1, m)], wAdd size m.sizeEstimate)
      | .error _ => (fs, size)
    | none =>
      let m := defaultMerger kv.2
      (fs ++ [(kv.1, m)], wAdd size m.sizeEstimate)

/-- The field list of an object event; a non-object root contributes no
fields (the `if let Value::Object(fields) .. else ..new()` pattern). -/
def msgFieldsOf : Value → List (String × Value)
  | .object fs => fs
  | _ => []

/-- `ReduceState::new`: root fields always get default mergers; message
fields go through `newMsgStep`; `started_at` is the creation instant. -/
def ReduceState.new (event messageEvent : Value)
    (strategies : List (String × MergeStrategy))
    (dateFormats : List (String × String))
    (groupBy : List String) (now : Nat) : ReduceState :=
  let fields : List (String × Merger) :=
    (msgFieldsOf event).map (fun kv => (kv.1, defaultMerger kv.2))
  let msg := (msgFieldsOf messageEvent).foldl (newMsgStep strategies groupBy) ([], 0)
  { fields := fields, messageFields := msg.1, startedAt := now,
    dateFormats := dateFormats, sizeEstimate := msg.2 }

/-- One step of the root-field loop of `ReduceState::add_event`: unseen
keys get a fresh default merger, seen keys are merged (a failing `add`
is dropped with a warning and leaves the merger unchanged). -/
def addOuterStep (acc : List (String × Merger)) (kv : String × Value) :
    List (String × Merger) :=
  match lookupKV acc kv.1 with
  | none => acc ++ [(kv.1, defaultMerger kv.2)]
  | some m =>
    match m.add kv.2 with
    | .ok m2 => insertKV acc kv.1 m2
    | .error _ => acc

/-- One step of the message-field loop of `ReduceState::add_event`.
Unseen keys get a fresh merger (strategy or default) whose estimate is
added; seen keys are merged and the size delta (post-add estimate minus
pre-add estimate, `usize` wrapping subtraction) is added to the running
(wrapping) size; a failing `add` changes nothing. -/
def addMsgStep (strategies : List (String × MergeStrategy))
    (acc : List (String × Merger) × Nat) (kv : String × Value) :
    List (String × Merger) × Nat :=
  let (fs, size) := acc
  match lookupKV fs kv.1 with
  | none =>
    match lookupKV strategies kv.1 with
    | some strat =>
      match getValueMerger kv.2 strat with
      | .ok m => (fs ++ [(kv.1, m)], wAdd size m.sizeEstimate)
      | .error _ => (fs, size)
    | none =>
      let m := defaultMerger kv.2
      (fs ++ [(kv.1, m)], wAdd size m.sizeEstimate)
  | some m =>
    let original := m.sizeEstimate
    match m.add kv.2 with
    | .error _ => (fs, size)
    | .ok m2 => (insertKV fs kv.1 m2, wAdd size (wSub m2.sizeEstimate original))

/-- `ReduceState::add_event` (metadata merging omitted, see the header). -/
def ReduceState.addEvent (st : ReduceState) (event messageEvent : Value)
    (strategies : List (String × MergeStrategy)) : ReduceState :=
  let fields := (msgFieldsOf event).foldl addOuterStep st.fields
  let msg := (msgFieldsOf messageEvent).foldl (addMsgStep strategies)
    (st.messageFields, st.sizeEstimate)
  { st with fields := fields, messageFields := msg.1, sizeEstimate := msg.2 }

/-- One property of the egress loop of
`ReduceState::coerce_from_timestamp_if_needed`: when both the property
and its `_end` counterpart hold timestamps, format both and coerce back
to the recorded kind; a missing record is the `expect` panic of
`MezmoMetadata::get_date_kind` (`none`); a recorded kind other than
`string` / `integer` warns and leaves the values as they are. -/
def coercePropFrom (ch : Chrono) (dateKinds : List (String × String))
    (p fmt : String) (msgVal : Value) : Option Value :=
  let endProp := p ++ "_end"
  match msgVal.getKey p, msgVal.getKey endProp with
  | some (.timestamp s), some (.timestamp e) =>
    let sStr := ch.format fmt s
    let eStr := ch.format fmt e
    match lookupKV dateKinds p with
    | none => none
    | some kind =>
      if kind = "string" then
        some ((msgVal.insertKey p (.bytes sStr)).insertKey endProp (.bytes eStr))
      else if kind = "integer" then
        let sv := match parseI64 sStr with
          | some n => Value.int n
          | none => Value.bytes sStr
        let ev := match parseI64 eStr with
          | some n => Value.int n
          | none => Value.bytes eStr
        some ((msgVal.insertKey p sv).insertKey endProp ev)
      else
        some msgVal
  | _, _ => some msgVal

/-- One fold step of the egress property loop (panics propagate). -/
def coerceFromStep (ch : Chrono) (dateKinds : List (String × String))
    (acc : Option Value) (pf : String × String) : Option Value :=
  match acc with
  | none => none
  | some m => coercePropFrom ch dateKinds pf.1 pf.2 m

/-- `ReduceState::coerce_from_timestamp_if_needed` on the flushed event:
an empty `date_formats` returns immediately; otherwise the `message`
key is accessed with `get_mut(..).unwrap()` — its absence is a panic
(`none`); then each configured property is processed in turn. -/
def ReduceState.coerceFromTimestampIfNeeded (st : ReduceState) (ch : Chrono)
    (dateKinds : List (String × String)) (ev : Value) : Option Value :=
  if st.dateFormats = [] then some ev
  else
    match ev.getKey "message" with
    | none => none
    | some msg0 =>
      match st.dateFormats.foldl (coerceFromStep ch dateKinds) (some msg0) with
      | none => none
      | some msg1 => some (ev.insertKey "message" msg1)

/-- Write one message-field merger into the output event under the
`message` object (the source inserts at the quoted path `message.<k>`,
creating the `message` object on first insert). -/
def insertMessageMerger (fs : List (String × Value)) (km : String × Merger) :
    List (String × Value) :=
  let cur := match lookupKV fs "message" with
    | some (.object mfs) => mfs
    | _ => []
  insertKV fs "message" (.object (km.2.writeInto km.1 cur))

/-- `ReduceState::flush`: build the output event from the outer mergers
at top-level keys and the message mergers under `message`, then apply
the egress timestamp coercion.  A `none` is a panic of the original
code. -/
def ReduceState.flush (st : ReduceState) (ch : Chrono)
    (dateKinds : List (String × String)) : Option Value :=
  let root := st.fields.foldl (fun fs km => km.2.writeInto km.1 fs) []
  let withMsg := st.messageFields.foldl insertMessageMerger root
  st.coerceFromTimestampIfNeeded ch dateKinds (.object withMsg)

/-- One property of the ingress loop of
`MezmoReduce::coerce_into_timestamp_if_needed`: if the event has a value
at the property, stringify and parse it with the configured format; on
success record the value's runtime kind (first observation wins) and
replace the value with the parsed timestamp; on failure warn and leave
the value unchanged. -/
def coercePropInto (ch : Chrono) (p fmt : String)
    (acc : Value × List (String × String)) : Value × List (String × String) :=
  let (ev, kinds) := acc
  match ev.getKey p with
  | some v =>
    match ch.parse fmt v.toStringLossy with
    | some d => (ev.insertKey p (.timestamp d), saveDateKind kinds p v.kindStr)
    | none => (ev, kinds)
  | none => (ev, kinds)

/-- `MezmoReduce::coerce_into_timestamp_if_needed` over the whole
`date_formats` table, threading the shared kind map. -/
def coerceIntoTimestampIfNeeded (ch : Chrono)
    (dateFormats dateKinds : List (String × String)) (ev : Value) :
    Value × List (String × String) :=
  if dateFormats = [] then (ev, dateKinds)
  else dateFormats.foldl
    (fun acc pf => coercePropInto ch pf.1 pf.2 acc) (ev, dateKinds)

/-- `MezmoReduce::extract_message_event`: remove `message` from the
outer event (the removal happens whatever the value's type); when the
removed value is an object it becomes the inner event and goes through
ingress coercion; otherwise the inner event is empty and the removed
value is discarded. -/
def extractMessageEvent (ch : Chrono)
    (dateFormats dateKinds : List (String × String)) (ev : Value) :
    Value × Value × List (String × String) :=
  match ev.removeKey "message" with
  | (some (.object fs), ev2) =>
    let m := coerceIntoTimestampIfNeeded ch dateFormats dateKinds (.object fs)
    (ev2, m.1, m.2)
  | (some _, ev2) => (ev2, .object [], dateKinds)
  | (none, ev2) => (ev2, .object [], dateKinds)

/-- Discriminants: ordered tuples of optional values at the `group_by`
paths (absence is a valid, equality-comparable slot). -/
abbrev Discriminant := List (Option Value)

/-- Modelled from the spec: `Discriminant::from_log_event`
(`event/discriminant.rs` is not under `src/`) — extract the values of
the inner event at the configured `group_by` paths, in order. -/
def discriminantFromLogEvent (ev : Value) (groupBy : List String) : Discriminant :=
  groupBy.map (fun k => ev.getKey k)

/-- The telemetry counters reachable from the sources: the reduce
transform's stale-flush signal (`internal_events::ReduceStaleEventFlushed`)
and the three counters declared in
`src/internal_events/mezmo_aggregate.rs`. -/
inductive Telemetry where
  | reduceStaleEventFlushed
  | aggregateEventRecorded
  | aggregateFlushed
  | aggregateUpdateFailed
deriving DecidableEq, Repr

/-- The top-level transform (the Rust struct `MezmoReduce`; named
`Reducer` here because the Lean namespace already carries the Rust
module name).  Boundary predicates are the black-box `Condition::check`
interface: they consume and return the inner event together with the
verdict. -/
structure Reducer where
  expireAfter : Nat
  flushPeriod : Nat
  groupBy : List String
  mergeStrategies : List (String × MergeStrategy)
  states : List (Discriminant × ReduceState)
  endsWhen : Option (Value → Bool × Value)
  startsWhen : Option (Value → Bool × Value)
  dateFormats : List (String × String)
  dateKinds : List (String × String)
  byteThresholdPerState : Nat
  byteThresholdAllStates : Nat

/-- Insert into the `BTreeMap<Instant, Discriminant>` flush set: kept
sorted by key, and an equal key replaces the stored discriminant. -/
def btreeInsert : List (Nat × Discriminant) → Nat → Discriminant →
    List (Nat × Discriminant)
  | [], k, d => [(k, d)]
  | (k2, d2) :: rest, k, d =>
    if k < k2 then (k, d) :: (k2, d2) :: rest
    else if k = k2 then (k, d) :: rest
    else (k2, d2) :: btreeInsert rest k d

/-- Stable insertion into a list sorted by `started_at` ascending
(model of `sort_by(|a, b| a.started_at.cmp(&b.started_at))`). -/
def insertByStartedAt (ds : Discriminant × ReduceState) :
    List (Discriminant × ReduceState) → List (Discriminant × ReduceState)
  | [] => [ds]
  | x :: xs =>
    if ds.2.startedAt < x.2.startedAt then ds :: x :: xs
    else x :: insertByStartedAt ds xs

/-- Sort states by ascending `started_at` (stable). -/
def sortByStartedAt (l : List (Discriminant × ReduceState)) :
    List (Discriminant × ReduceState) :=
  l.foldl (fun acc ds => insertByStartedAt ds acc) []

/-- One step of the selection loop of `MezmoReduce::flush_into`: a stale
or over-threshold state joins the `BTreeMap` flush set; otherwise its
size estimate joins the running total (`usize` wrapping addition). -/
def flushScanStep (r : Reducer) (now : Nat)
    (acc : List (Nat × Discriminant) × Nat) (ds : Discriminant × ReduceState) :
    List (Nat × Discriminant) × Nat :=
  if r.expireAfter ≤ now - ds.2.startedAt then
    (btreeInsert acc.1 ds.2.startedAt ds.1, acc.2)
  else if r.byteThresholdPerState < ds.2.sizeEstimate then
    (btreeInsert acc.1 ds.2.startedAt ds.1, acc.2)
  else
    (acc.1, wAdd acc.2 ds.2.sizeEstimate)

/-- The selection loop of `MezmoReduce::flush_into`. -/
def flushScan (r : Reducer) (now : Nat) :
    List (Nat × Discriminant) × Nat :=
  r.states.foldl (flushScanStep r now) ([], 0)

/-- One step of the stale-flush loop of `MezmoReduce::flush_into`:
remove the selected discriminant; a removed state is flushed with a
`ReduceStaleEventFlushed` emission.  A `none` is a panic inside
`ReduceState::flush`. -/
def staleFlushStep (ch : Chrono) (dateKinds : List (String × String))
    (acc : Option (List (Discriminant × ReduceState) × List (Value × Bool) × List Telemetry))
    (kd : Nat × Discriminant) :
    Option (List (Discriminant × ReduceState) × List (Value × Bool) × List Telemetry) :=
  match acc with
  | none => none
  | some (states, out, tele) =>
    match lookupKV states kd.2 with
    | none => some (states, out, tele)
    | some st =>
      match st.flush ch dateKinds with
      | none => none
      | some ev =>
        some (eraseKV states kd.2, out ++ [(ev, true)],
          tele ++ [Telemetry.reduceStaleEventFlushed])

/-- The stale-flush loop of `MezmoReduce::flush_into`: remove each
selected discriminant in ascending `started_at` order. -/
def staleFlushLoop (ch : Chrono) (dateKinds : List (String × String))
    (flushSet : List (Nat × Discriminant))
    (states : List (Discriminant × ReduceState)) :
    Option (List (Discriminant × ReduceState) × List (Value × Bool) × List Telemetry) :=
  flushSet.foldl (staleFlushStep ch dateKinds) (some (states, [], []))

/-- One step of the flush-everything loop of
`MezmoReduce::flush_all_into`. -/
def flushAllStep (ch : Chrono) (dateKinds : List (String × String))
    (acc : Option (List Value)) (ds : Discriminant × ReduceState) :
    Option (List Value) :=
  match acc with
  | none => none
  | some out =>
    match ds.2.flush ch dateKinds with
    | none => none
    | some ev => some (out ++ [ev])

/-- `MezmoReduce::flush_all_into`: drain every state, sort by ascending
`started_at`, flush each (no stale signal). -/
def Reducer.flushAllInto (r : Reducer) (ch : Chrono) :
    Option (Reducer × List Value) :=
  let sorted := sortByStartedAt r.states
  let outs := sorted.foldl (flushAllStep ch r.dateKinds) (some [])
  match outs with
  | none => none
  | some out => some ({ r with states := [] }, out)

/-- `MezmoReduce::flush_into`: flush stale / over-threshold states with
the stale signal, then, if the remaining states' total size exceeds the
aggregate threshold, flush everything that remains (without the
signal).  Output events are paired with whether a stale-flush telemetry
signal accompanied them. -/
def Reducer.flushInto (r : Reducer) (now : Nat) (ch : Chrono) :
    Option (Reducer × List (Value × Bool) × List Telemetry) :=
  let scan := flushScan r now
  match staleFlushLoop ch r.dateKinds scan.1 r.states with
  | none => none
  | some (states, out, tele) =>
    if r.byteThresholdAllStates < scan.2 then
      match Reducer.flushAllInto { r with states := states } ch with
      | none => none
      | some (r2, outs) =>
        some (r2, out ++ outs.map (fun e => (e, false)), tele)
    else
      some ({ r with states := states }, out, tele)

/-- `MezmoReduce::push_or_new_reduce_state`: fold into the existing
state for the discriminant, or create a fresh one seeded by the event. -/
def Reducer.pushOrNewReduceState (r : Reducer) (event messageEvent : Value)
    (disc : Discriminant) (now : Nat) : Reducer :=
  match lookupKV r.states disc with
  | none =>
    let st := ReduceState.new event messageEvent r.mergeStrategies r.dateFormats
      r.groupBy now
    { r with states := insertKV r.states disc st }
  | some st =>
    let st2 := st.addEvent event messageEvent r.mergeStrategies
    { r with states := insertKV r.states disc st2 }

/-- The routing part of `MezmoReduce::transform_one` (the `if` chain on
the two predicate verdicts), producing the routed reducer and the events
pushed by the routing itself (never with a stale signal). -/
def Reducer.route (r : Reducer) (now : Nat) (ch : Chrono)
    (startsHere endsHere : Bool) (event messageEvent : Value)
    (disc : Discriminant) : Option (Reducer × List (Value × Bool)) :=
  if startsHere then
    match lookupKV r.states disc with
    | some st =>
      match st.flush ch r.dateKinds with
      | none => none
      | some ev =>
        some (Reducer.pushOrNewReduceState { r with states := eraseKV r.states disc }
          event messageEvent disc now, [(ev, false)])
    | none => some (r.pushOrNewReduceState event messageEvent disc now, [])
  else if endsHere then
    match lookupKV r.states disc with
    | some st =>
      match (st.addEvent event messageEvent r.mergeStrategies).flush ch r.dateKinds with
      | none => none
      | some ev => some ({ r with states := eraseKV r.states disc }, [(ev, false)])
    | none =>
      match (ReduceState.new event messageEvent r.mergeStrategies r.dateFormats
          r.groupBy now).flush ch r.dateKinds with
      | none => none
      | some ev => some (r, [(ev, false)])
  else
    some (r.pushOrNewReduceState event messageEvent disc now, [])

/-- The pre-sweep part of `MezmoReduce::transform_one`: extract the
inner event (with ingress coercion), evaluate `starts_when` then
`ends_when` on it (each returns a possibly modified event used from then
on), compute the discriminant, and route. -/
def Reducer.routeEvent (r : Reducer) (now : Nat) (ch : Chrono) (event : Value) :
    Option (Reducer × List (Value × Bool)) :=
  let ex := extractMessageEvent ch r.dateFormats r.dateKinds event
  let event := ex.1
  let r := { r with dateKinds := ex.2.2 }
  let s := match r.startsWhen with
    | some c => c ex.2.1
    | none => (false, ex.2.1)
  let e := match r.endsWhen with
    | some c => c s.2
    | none => (false, s.2)
  let messageEvent := e.2
  let disc := discriminantFromLogEvent messageEvent r.groupBy
  r.route now ch s.1 e.1 event messageEvent disc

/-- `MezmoReduce::transform_one`: route the event, then run the
expiration sweep. -/
def Reducer.transformOne (r : Reducer) (now : Nat) (ch : Chrono) (event : Value) :
    Option (Reducer × List (Value × Bool) × List Telemetry) :=
  match r.routeEvent now ch event with
  | none => none
  | some (r, out) =>
    match r.flushInto now ch with
    | none => none
    | some (r2, out2, tele) => some (r2, out ++ out2, tele)

/-- The configuration `MezmoReduceConfig`, generic in the opaque
`AnyCondition` type `κ` of the boundary predicates. -/
structure MezmoReduceConfig (κ : Type) where
  expireAfterMs : Nat
  flushPeriodMs : Nat
  groupBy : List String
  mergeStrategies : List (String × MergeStrategy)
  endsWhen : Option κ
  startsWhen : Option κ
  dateFormats : List (String × String)

/-- Default of `REDUCE_BYTE_THRESHOLD_PER_STATE` (100 KiB). -/
def byteThresholdPerStateDefault : Nat := 100 * 1024

/-- Default of `REDUCE_BYTE_THRESHOLD_ALL_STATES` (1 MiB). -/
def byteThresholdAllStatesDefault : Nat := 1024 * 1024

/-- Environment threshold parsing: a set variable is parsed with
`unwrap_or(default)`; an unset variable gives the default. -/
def parseThresholdEnv (v : Option String) (dflt : Nat) : Nat :=
  match v with
  | some s => (parseNatStr s).getD dflt
  | none => dflt

/-- Build an optional boundary condition (`Option<AnyCondition>` through
`map(build).transpose()?`): absent stays absent, a failing build aborts
construction. -/
def buildOptCondition {κ : Type}
    (build : κ → Except String (Value → Bool × Value)) :
    Option κ → Except String (Option (Value → Bool × Value))
  | none => .ok none
  | some c =>
    match build c with
    | .ok cond => .ok (some cond)
    | .error e => .error e

/-- `MezmoReduce::new`: reject a configuration carrying both
`ends_when` and `starts_when`, then build the predicates (either build
error aborts), read the two byte thresholds from the environment, and
start with an empty state map and an empty kind map. -/
def Reducer.new {κ : Type} (config : MezmoReduceConfig κ)
    (build : κ → Except String (Value → Bool × Value))
    (envPerState envAllStates : Option String) : Except String Reducer :=
  if config.endsWhen.isSome && config.startsWhen.isSome then
    .error "only one of `ends_when` and `starts_when` can be provided"
  else do
    let endsWhen ← buildOptCondition build config.endsWhen
    let startsWhen ← buildOptCondition build config.startsWhen
    .ok
      { expireAfter := config.expireAfterMs
        flushPeriod := config.flushPeriodMs
        groupBy := config.groupBy
        mergeStrategies := config.mergeStrategies
        states := []
        endsWhen := endsWhen
        startsWhen := startsWhen
        dateFormats := config.dateFormats
        dateKinds := []
        byteThresholdPerState :=
          parseThresholdEnv envPerState byteThresholdPerStateDefault
        byteThresholdAllStates :=
          parseThresholdEnv envAllStates byteThresholdAllStatesDefault }

/-! Definitions used by the claim statements. -/

/-- Whether a value is an object (the `Value::Object` pattern test). -/
def Value.isObject : Value → Bool
  | .object _ => true
  | _ => false

/-- The sum of the size estimates of the inner mergers at keys not in
`group_by` (the quantity the running `size_estimate` actually tracks;
mergers at `group_by` keys are skipped by `ReduceState::new`). -/
def mergerMapSize (groupBy : List String) (fs : List (String × Merger)) : Nat :=
  (fs.map (fun km => if groupBy.contains km.1 then 0 else km.2.sizeEstimate)).sum

/-- The flush criterion of the expiration sweep: stale (age at least
`expire_after_ms`) or over the per-state byte threshold. -/
def staleOrBig (r : Reducer) (now : Nat) (ds : Discriminant × ReduceState) : Bool :=
  decide (r.expireAfter ≤ now - ds.2.startedAt) ||
    decide (r.byteThresholdPerState < ds.2.sizeEstimate)

/-- Flush a list of states in order; a `none` marks the first panicking
flush (mirroring how a panic aborts the sweep). -/
def mapFlushOpt (ch : Chrono) (kinds : List (String × String)) :
    List (Discriminant × ReduceState) → Option (List Value)
  | [] => some []
  | ds :: rest =>
    match ds.2.flush ch kinds with
    | none => none
    | some ev => (mapFlushOpt ch kinds rest).map (fun l => ev :: l)

/-- Specification-side description of the expiration sweep, following
the spec's words: flush exactly the stale / over-threshold states in
ascending `started_at` order, each with a stale-flush signal; then, if
the sum of the size estimates of the remaining states exceeds the
aggregate threshold, flush every remaining state in ascending
`started_at` order without the signal and clear the map. -/
def flushIntoSpec (r : Reducer) (now : Nat) (ch : Chrono) :
    Option (Reducer × List (Value × Bool) × List Telemetry) :=
  let flushable := r.states.filter (staleOrBig r now)
  let keep := r.states.filter (fun ds => !(staleOrBig r now ds))
  match mapFlushOpt ch r.dateKinds (sortByStartedAt flushable) with
  | none => none
  | some staleEvs =>
    let remainingTotal := (keep.map (fun ds => ds.2.sizeEstimate)).sum
    if r.byteThresholdAllStates < remainingTotal then
      match mapFlushOpt ch r.dateKinds (sortByStartedAt keep) with
      | none => none
      | some keepEvs =>
        some ({ r with states := [] },
          staleEvs.map (fun e => (e, true)) ++ keepEvs.map (fun e => (e, false)),
          staleEvs.map (fun _ => Telemetry.reduceStaleEventFlushed))
    else
      some ({ r with states := keep }, staleEvs.map (fun e => (e, true)),
        staleEvs.map (fun _ => Telemetry.reduceStaleEventFlushed))

/-- The kind map after ingesting a sequence of inner events (the
`date_kinds` evolution of a run, ingress side only). -/
def ingressKinds (ch : Chrono) (df : List (String × String)) :
    List (String × String) → List Value → List (String × String)
  | kinds, [] => kinds
  | kinds, e :: es =>
    ingressKinds ch df (coerceIntoTimestampIfNeeded ch df kinds e).2 es

/-- Whether the ingress parse for property `p` with format `fmt` does
not succeed on event `e` (absent value or failing parse). -/
def parseFailsAt (ch : Chrono) (fmt p : String) (e : Value) : Bool :=
  match e.getKey p with
  | some v => (ch.parse fmt v.toStringLossy).isNone
  | none => true

/-- Whether a merger is the discard variant. -/
def Merger.isDiscard : Merger → Bool
  | .discard _ => true
  | _ => false

/-- The egress rendering of a timestamp window endpoint `t` for a
recorded ingress kind `κ`: a `string` kind yields the formatted string,
an `integer` kind yields the integer re-parsed from the formatted
string when it parses as an `i64` and the formatted string otherwise
(mirrors the two arms of `coerce_from_timestamp_if_needed`). -/
def egressValue (ch : Chrono) (κ fmt : String) (t : Int) : Value :=
  if κ = "string" then .bytes (ch.format fmt t)
  else
    match parseI64 (ch.format fmt t) with
    | some n => .int n
    | none => .bytes (ch.format fmt t)

/-! Concrete instances used by witnesses and counterexamples. -/

/-- A concrete chrono model: format `%s` renders and parses decimal
epoch seconds; all other formats fail to parse. -/
def chW : Chrono :=
  ⟨fun fmt s => if fmt = "%s" then parseIntStr s else none, fun _ t => toString t⟩

/-- A reducer with no boundary conditions and default-like thresholds. -/
def baseReducer : Reducer :=
  { expireAfter := 30000, flushPeriod := 1000, groupBy := [],
    mergeStrategies := [], states := [], endsWhen := none, startsWhen := none,
    dateFormats := [], dateKinds := [],
    byteThresholdPerState := 102400, byteThresholdAllStates := 1048576 }

/-- An `ends_when` predicate: true when `test_end` exists. -/
def endsOnTestEnd : Value → Bool × Value :=
  fun ev => ((ev.getKey "test_end").isSome, ev)

/-- The C1 reducer: `date_formats = .ts: %s.`, an `ends_when` condition. -/
def rC1 : Reducer :=
  { baseReducer with endsWhen := some endsOnTestEnd, dateFormats := [("ts", "%s")] }

/-- First C1 event: `message.ts` is already a timestamp, so the ingress
parse of its rendering with `%s` fails and no kind is recorded. -/
def evC1a : Value := .object [("message", .object [("ts", .timestamp 100)])]

/-- Second C1 event: another timestamp plus the end marker, so the group
is flushed with `ts` and `ts_end` both holding timestamps. -/
def evC1b : Value :=
  .object [("message", .object [("ts", .timestamp 200), ("test_end", .bytes "yes")])]

/-- The C8 witness configuration: both predicates configured. -/
def wC8cfg : MezmoReduceConfig Unit :=
  { expireAfterMs := 30000, flushPeriodMs := 1000, groupBy := [],
    mergeStrategies := [], endsWhen := some (), startsWhen := some (),
    dateFormats := [] }

/-- A trivially succeeding condition builder for the C8 witness. -/
def wC8build : Unit → Except String (Value → Bool × Value) :=
  fun _ => .ok (fun v => (false, v))

/-- The C10 witness outer event: a non-object `message` plus another field. -/
def wC10ev : List (String × Value) :=
  [("message", .bytes "hello"), ("other", .int 1)]

/-- The C6 counterexample state: `group_by = .g.`, seeded with a
group-by field (merger not counted) and one ordinary string field. -/
def stC6 : ReduceState :=
  ReduceState.new (.object [])
    (.object [("g", .bytes "1"), ("x", .bytes "hello")]) [] [] ["g"] 0

/-- The C7 strategies: a `shortest_array` field whose estimate shrinks. -/
def stratC7 : List (String × MergeStrategy) := [("k", .shortestArray)]

/-- The C7 counterexample state: a two-element `shortest_array`
accumulator (estimate 8) plus a string field (estimate 3). -/
def stC7 : ReduceState :=
  ReduceState.new (.object [])
    (.object [("k", .array [.bytes "aaaa", .bytes "bbbb"]),
      ("other", .bytes "xyz")]) stratC7 [] [] 0

/-- The C9 state: a `concat` merger holding the string `a`. -/
def stC9 : ReduceState :=
  ReduceState.new (.object []) (.object [("k", .bytes "a")])
    [("k", .concat)] [] [] 0

/-- The C9 reducer: the state above is live under the empty discriminant. -/
def rC9 : Reducer :=
  { baseReducer with
    mergeStrategies := [("k", MergeStrategy.concat)]
    states := [([], stC9)] }

/-- The C9 event: an integer at the `concat` key, an incompatible merge. -/
def evC9 : Value := .object [("message", .object [("k", .int 5)])]

/-- A reducer whose single state is already stale (`expire_after` zero),
used to exercise the stale-flush telemetry in the C9 witness. -/
def rC9stale : Reducer := { rC9 with expireAfter := 0 }

/-- The C2 witness reducer: one live state under the empty discriminant. -/
def wC2r : Reducer := { baseReducer with states := [([], stC6)] }

/-- The state the C2 witness expects to be created by a firing
`starts_when`: seeded by the current event only. -/
def wC2new : ReduceState :=
  ReduceState.new (.object []) (.object [("y", .int 1)]) [] [] [] 5

/-- The flush of the pre-existing C2 witness state. -/
def wC2flushed : Value :=
  .object [("message",
    .object [("g", .bytes "1"), ("x", .bytes "hello")])]

/-- The reducer after the C2 witness routing step. -/
def wC2r2 : Reducer :=
  { wC2r with states := insertKV (eraseKV wC2r.states []) [] wC2new }

/-- The C5 ingress event: `ts` holds the string `100`, which parses
with `%s`, so the recorded kind is `string`. -/
def evC5in : Value := .object [("ts", .bytes "100")]

/-- The C5 state for the egress side: `date_formats = .ts: %s.`. -/
def stC5 : ReduceState :=
  { fields := [], messageFields := [], startedAt := 0,
    dateFormats := [("ts", "%s")], sizeEstimate := 0 }

/-- The C5 message value at flush time: a timestamp window at `ts`. -/
def msgC5 : Value := .object [("ts", .timestamp 100), ("ts_end", .timestamp 200)]

/-- The C5 flushed event before egress coercion. -/
def evC5flush : Value := .object [("message", msgC5)]

/-- The C5 flushed event after egress coercion: both window endpoints
rendered as strings with `%s`. -/
def outC5 : Value :=
  .object [("message", .object [("ts", .bytes "100"), ("ts_end", .bytes "200")])]

/-- The C3 counterexample state: empty, flushable, `started_at = 5`. -/
def stC3 : ReduceState :=
  { fields := [], messageFields := [], startedAt := 5, dateFormats := [],
    sizeEstimate := 0 }

/-- The C3 counterexample reducer: `expire_after = 0` makes every state
stale; two live states share `started_at = 5` under distinct
discriminants. -/
def rC3 : Reducer :=
  { baseReducer with
    expireAfter := 0,
    states := [([some (.bytes "a")], stC3), ([some (.bytes "b")], stC3)] }

/-! Lemma library for the association-list maps and the wrapping
arithmetic. -/

/-- The keys of an association list, in order. -/
def keysOf {α β : Type} (l : List (α × β)) : List α := l.map Prod.fst

theorem keysOf_nil {α β : Type} : keysOf ([] : List (α × β)) = [] := rfl

theorem keysOf_cons {α β : Type} (kv : α × β) (l : List (α × β)) :
    keysOf (kv :: l) = kv.1 :: keysOf l := rfl

theorem keysOf_append {α β : Type} (l1 l2 : List (α × β)) :
    keysOf (l1 ++ l2) = keysOf l1 ++ keysOf l2 := by
  simp [keysOf]

section KVLemmas

variable {α β : Type} [DecidableEq α]

theorem lookupKV_insert_self (l : List (α × β)) (k : α) (v : β) :
    lookupKV (insertKV l k v) k = some v := by
  induction l with
  | nil => simp [insertKV, lookupKV]
  | cons kv rest ih =>
    by_cases h : kv.1 = k
    · simp [insertKV, lookupKV, h]
    · simp [insertKV, lookupKV, h, ih]

theorem lookupKV_insert_ne (l : List (α × β)) (k' k : α) (v : β) (h : k' ≠ k) :
    lookupKV (insertKV l k' v) k = lookupKV l k := by
  induction l with
  | nil => simp [insertKV, lookupKV, h]
  | cons kv rest ih =>
    by_cases h2 : kv.1 = k'
    · simp [insertKV, lookupKV, h2, h]
    · simp [insertKV, lookupKV, h2, ih]

theorem lookupKV_append_some (l1 l2 : List (α × β)) (k : α) (v : β)
    (h : lookupKV l1 k = some v) : lookupKV (l1 ++ l2) k = some v := by
  induction l1 with
  | nil => simp [lookupKV] at h
  | cons kv rest ih =>
    by_cases h2 : kv.1 = k
    · simp [lookupKV, h2] at h ⊢; exact h
    · simp [lookupKV, h2] at h ⊢; exact ih h

theorem lookupKV_append_none (l1 l2 : List (α × β)) (k : α)
    (h : lookupKV l1 k = none) : lookupKV (l1 ++ l2) k = lookupKV l2 k := by
  induction l1 with
  | nil => simp
  | cons kv rest ih =>
    by_cases h2 : kv.1 = k
    · simp [lookupKV, h2] at h
    · simp [lookupKV, h2] at h ⊢; exact ih h

theorem lookupKV_eq_none_iff (l : List (α × β)) (k : α) :
    lookupKV l k = none ↔ k ∉ keysOf l := by
  induction l with
  | nil => simp [lookupKV, keysOf_nil]
  | cons kv rest ih =>
    rw [lookupKV, keysOf_cons]
    by_cases h : kv.1 = k
    · simp [h]
    · rw [if_neg h, ih, List.mem_cons]
      constructor
      · intro hn hm
        rcases hm with hm | hm
        · exact h hm.symm
        · exact hn hm
      · intro hn hm
        exact hn (Or.inr hm)

theorem eraseKV_of_none (l : List (α × β)) (k : α)
    (h : lookupKV l k = none) : eraseKV l k = l := by
  induction l with
  | nil => simp [eraseKV]
  | cons kv rest ih =>
    by_cases h2 : kv.1 = k
    · simp [lookupKV, h2] at h
    · simp [lookupKV, h2] at h
      simp [eraseKV, h2, ih h]

theorem lookupKV_erase_self (l : List (α × β)) (k : α)
    (hnd : (keysOf l).Nodup) : lookupKV (eraseKV l k) k = none := by
  induction l with
  | nil => simp [eraseKV, lookupKV]
  | cons kv rest ih =>
    rw [keysOf_cons, List.nodup_cons] at hnd
    by_cases h2 : kv.1 = k
    · rw [eraseKV, if_pos h2, lookupKV_eq_none_iff]
      subst h2
      exact hnd.1
    · rw [eraseKV, if_neg h2, lookupKV, if_neg h2]
      exact ih hnd.2

theorem lookupKV_erase_ne (l : List (α × β)) (k' k : α) (h : k' ≠ k) :
    lookupKV (eraseKV l k') k = lookupKV l k := by
  induction l with
  | nil => simp [eraseKV]
  | cons kv rest ih =>
    by_cases h2 : kv.1 = k'
    · rw [eraseKV, if_pos h2, lookupKV, if_neg (h2 ▸ h)]
    · rw [eraseKV, if_neg h2, lookupKV, lookupKV]
      by_cases h3 : kv.1 = k
      · simp [h3]
      · simp [h3, ih]

theorem keysOf_insert_mem (l : List (α × β)) (k : α) (v : β)
    (h : k ∈ keysOf l) : keysOf (insertKV l k v) = keysOf l := by
  induction l with
  | nil => simp [keysOf_nil] at h
  | cons kv rest ih =>
    by_cases h2 : kv.1 = k
    · simp [insertKV, h2, keysOf_cons]
    · rw [keysOf_cons, List.mem_cons] at h
      rcases h with h | h
      · exact absurd h.symm h2
      · rw [insertKV]
        simp only [h2, if_false]
        rw [keysOf_cons, keysOf_cons, ih h]

end KVLemmas

/-! Wrapping arithmetic lemmas. -/

theorem wPos : 0 < W := by simp [W]

theorem wAdd_lt (a b : Nat) : wAdd a b < W := Nat.mod_lt _ wPos

theorem wSub_lt (a b : Nat) : wSub a b < W := Nat.mod_lt _ wPos

theorem cast_wAdd (a b : Nat) : ((wAdd a b : Nat) : ZMod W) = (a : ZMod W) + b := by
  simp [wAdd, Nat.cast_add, ZMod.natCast_mod]

theorem cast_wSub (a b : Nat) : ((wSub a b : Nat) : ZMod W) = (a : ZMod W) - b := by
  have hle : b % W ≤ W := le_of_lt (Nat.mod_lt _ wPos)
  have : ((wSub a b : Nat) : ZMod W) =
      ((a % W : Nat) : ZMod W) + ((W - b % W : Nat) : ZMod W) := by
    simp [wSub, ZMod.natCast_mod, Nat.cast_add]
  rw [this, Nat.cast_sub hle]
  have hW : ((W : Nat) : ZMod W) = 0 := by
    simp [ZMod.natCast_self]
  rw [hW, ZMod.natCast_mod, ZMod.natCast_mod]
  ring

theorem wSub_self (a : Nat) : wSub a a = 0 := by
  have h : a % W ≤ W := le_of_lt (Nat.mod_lt _ wPos)
  simp [wSub, Nat.add_sub_cancel' h]

theorem wAdd_zero (a : Nat) : wAdd a 0 = a % W := by simp [wAdd]

theorem natEqModW (a b : Nat) (ha : a < W) (h : (a : ZMod W) = (b : ZMod W)) :
    a = b % W := by
  have h2 := congrArg ZMod.val h
  rw [ZMod.val_natCast, ZMod.val_natCast] at h2
  rw [Nat.mod_eq_of_lt ha] at h2
  exact h2

section KVMore

variable {α β : Type} [DecidableEq α]

theorem lookupKV_some_mem_keys (l : List (α × β)) (k : α) (v : β)
    (h : lookupKV l k = some v) : k ∈ keysOf l := by
  by_contra hmem
  rw [← lookupKV_eq_none_iff] at hmem
  rw [h] at hmem
  exact Option.noConfusion hmem

theorem mem_keys_lookup_ne_none (l : List (α × β)) (k : α)
    (h : k ∈ keysOf l) : lookupKV l k ≠ none := by
  intro hn
  rw [lookupKV_eq_none_iff] at hn
  exact hn h

theorem insertKV_self_eq (l : List (α × β)) (k : α) (v : β)
    (h : lookupKV l k = some v) : insertKV l k v = l := by
  induction l with
  | nil => simp [lookupKV] at h
  | cons kv rest ih =>
    obtain ⟨k1, w⟩ := kv
    by_cases h2 : k1 = k
    · subst h2
      rw [lookupKV] at h
      simp at h
      rw [insertKV]
      simp [h]
    · rw [lookupKV, if_neg h2] at h
      rw [insertKV]
      simp [h2, ih h]

end KVMore

theorem mergerMapSize_nil (g : List String) : mergerMapSize g [] = 0 := rfl

theorem mergerMapSize_cons (g : List String) (km : String × Merger)
    (fs : List (String × Merger)) :
    mergerMapSize g (km :: fs) =
      (if g.contains km.1 then 0 else km.2.sizeEstimate) + mergerMapSize g fs := by
  simp [mergerMapSize]

theorem mergerMapSize_append_one (g : List String) (fs : List (String × Merger))
    (k : String) (m : Merger) :
    mergerMapSize g (fs ++ [(k, m)]) =
      mergerMapSize g fs + (if g.contains k then 0 else m.sizeEstimate) := by
  simp [mergerMapSize]

theorem mergerMapSize_insert (g : List String) (fs : List (String × Merger))
    (k : String) (m m2 : Merger) (hl : lookupKV fs k = some m) :
    mergerMapSize g (insertKV fs k m2) +
        (if g.contains k then 0 else m.sizeEstimate) =
      mergerMapSize g fs + (if g.contains k then 0 else m2.sizeEstimate) := by
  induction fs with
  | nil => simp [lookupKV] at hl
  | cons kv rest ih =>
    obtain ⟨k1, w⟩ := kv
    by_cases h2 : k1 = k
    · subst h2
      rw [lookupKV] at hl
      simp at hl
      subst hl
      rw [insertKV]
      simp [mergerMapSize_cons]
      ring
    · rw [lookupKV, if_neg h2] at hl
      rw [insertKV, if_neg h2, mergerMapSize_cons, mergerMapSize_cons]
      have := ih hl
      omega

theorem discard_add_ok (m : Merger) (v : Value) (h : m.isDiscard = true) :
    m.add v = .ok m := by
  cases m <;> simp [Merger.isDiscard] at h
  rfl

section KVMem

variable {α β : Type} [DecidableEq α]

theorem lookupKV_some_mem (l : List (α × β)) (k : α) (v : β)
    (h : lookupKV l k = some v) : (k, v) ∈ l := by
  induction l with
  | nil => simp [lookupKV] at h
  | cons kv rest ih =>
    obtain ⟨k1, w⟩ := kv
    by_cases h2 : k1 = k
    · subst h2
      rw [lookupKV] at h
      simp at h
      subst h
      exact List.mem_cons_self _ _
    · rw [lookupKV, if_neg h2] at h
      exact List.mem_cons_of_mem _ (ih h)

theorem mem_insertKV (l : List (α × β)) (k : α) (v : β) (x : α × β)
    (h : x ∈ insertKV l k v) : x = (k, v) ∨ x ∈ l := by
  induction l with
  | nil => simp [insertKV] at h; exact Or.inl h
  | cons kv rest ih =>
    by_cases h2 : kv.1 = k
    · rw [insertKV, if_pos h2] at h
      rcases List.mem_cons.mp h with h | h
      · left; rw [h, h2]
      · right; exact List.mem_cons_of_mem _ h
    · rw [insertKV, if_neg h2] at h
      rcases List.mem_cons.mp h with h | h
      · right; rw [h]; exact List.mem_cons_self _ _
      · rcases ih h with h | h
        · left; exact h
        · right; exact List.mem_cons_of_mem _ h

end KVMem

/-! Step-equation lemmas for the two message-field loops. -/

theorem newMsgStep_eq_group (strategies : List (String × MergeStrategy))
    (groupBy : List String) (fs : List (String × Merger)) (size : Nat)
    (kv : String × Value) (hc : groupBy.contains kv.1 = true) :
    newMsgStep strategies groupBy (fs, size) kv =
      (fs ++ [(kv.1, Merger.discard kv.2)], size) := by
  rw [newMsgStep, if_pos hc]

theorem newMsgStep_eq_strat_ok (strategies : List (String × MergeStrategy))
    (groupBy : List String) (fs : List (String × Merger)) (size : Nat)
    (kv : String × Value) (strat : MergeStrategy) (m : Merger)
    (hc : groupBy.contains kv.1 = false)
    (hs : lookupKV strategies kv.1 = some strat)
    (hg : getValueMerger kv.2 strat = .ok m) :
    newMsgStep strategies groupBy (fs, size) kv =
      (fs ++ [(kv.1, m)], wAdd size m.sizeEstimate) := by
  rw [newMsgStep, if_neg (by rw [hc]; simp), hs]
  dsimp only
  rw [hg]

theorem newMsgStep_eq_strat_err (strategies : List (String × MergeStrategy))
    (groupBy : List String) (fs : List (String × Merger)) (size : Nat)
    (kv : String × Value) (strat : MergeStrategy) (e : String)
    (hc : groupBy.contains kv.1 = false)
    (hs : lookupKV strategies kv.1 = some strat)
    (hg : getValueMerger kv.2 strat = .error e) :
    newMsgStep strategies groupBy (fs, size) kv = (fs, size) := by
  rw [newMsgStep, if_neg (by rw [hc]; simp), hs]
  dsimp only
  rw [hg]

theorem newMsgStep_eq_default (strategies : List (String × MergeStrategy))
    (groupBy : List String) (fs : List (String × Merger)) (size : Nat)
    (kv : String × Value)
    (hc : groupBy.contains kv.1 = false)
    (hs : lookupKV strategies kv.1 = none) :
    newMsgStep strategies groupBy (fs, size) kv =
      (fs ++ [(kv.1, defaultMerger kv.2)],
        wAdd size (defaultMerger kv.2).sizeEstimate) := by
  rw [newMsgStep, if_neg (by rw [hc]; simp), hs]

theorem addMsgStep_eq_vacant_strat_ok (strategies : List (String × MergeStrategy))
    (fs : List (String × Merger)) (size : Nat) (kv : String × Value)
    (strat : MergeStrategy) (m : Merger)
    (hl : lookupKV fs kv.1 = none)
    (hs : lookupKV strategies kv.1 = some strat)
    (hg : getValueMerger kv.2 strat = .ok m) :
    addMsgStep strategies (fs, size) kv =
      (fs ++ [(kv.1, m)], wAdd size m.sizeEstimate) := by
  rw [addMsgStep]; simp [hl, hs, hg]

theorem addMsgStep_eq_vacant_strat_err (strategies : List (String × MergeStrategy))
    (fs : List (String × Merger)) (size : Nat) (kv : String × Value)
    (strat : MergeStrategy) (e : String)
    (hl : lookupKV fs kv.1 = none)
    (hs : lookupKV strategies kv.1 = some strat)
    (hg : getValueMerger kv.2 strat = .error e) :
    addMsgStep strategies (fs, size) kv = (fs, size) := by
  rw [addMsgStep]; simp [hl, hs, hg]

theorem addMsgStep_eq_vacant_default (strategies : List (String × MergeStrategy))
    (fs : List (String × Merger)) (size : Nat) (kv : String × Value)
    (hl : lookupKV fs kv.1 = none)
    (hs : lookupKV strategies kv.1 = none) :
    addMsgStep strategies (fs, size) kv =
      (fs ++ [(kv.1, defaultMerger kv.2)],
        wAdd size (defaultMerger kv.2).sizeEstimate) := by
  rw [addMsgStep]; simp [hl, hs]

theorem addMsgStep_eq_occupied_err (strategies : List (String × MergeStrategy))
    (fs : List (String × Merger)) (size : Nat) (kv : String × Value)
    (m : Merger) (e : String)
    (hl : lookupKV fs kv.1 = some m)
    (ha : m.add kv.2 = .error e) :
    addMsgStep strategies (fs, size) kv = (fs, size) := by
  rw [addMsgStep]; simp [hl, ha]

theorem addMsgStep_eq_occupied_ok (strategies : List (String × MergeStrategy))
    (fs : List (String × Merger)) (size : Nat) (kv : String × Value)
    (m m2 : Merger)
    (hl : lookupKV fs kv.1 = some m)
    (ha : m.add kv.2 = .ok m2) :
    addMsgStep strategies (fs, size) kv =
      (insertKV fs kv.1 m2,
        wAdd size (wSub m2.sizeEstimate m.sizeEstimate)) := by
  rw [addMsgStep]; simp [hl, ha]

/-- The size accumulated by the `ReduceState::new` message loop tracks
the non-group-by merger-size sum modulo the `usize` width. -/
theorem newMsgStep_size_inv (strategies : List (String × MergeStrategy))
    (groupBy : List String) (acc : List (String × Merger) × Nat)
    (kv : String × Value) (h : acc.2 = mergerMapSize groupBy acc.1 % W) :
    (newMsgStep strategies groupBy acc kv).2 =
      mergerMapSize groupBy (newMsgStep strategies groupBy acc kv).1 % W := by
  obtain ⟨fs, size⟩ := acc
  dsimp only at h
  by_cases hc : groupBy.contains kv.1 = true
  · rw [newMsgStep_eq_group strategies groupBy fs size kv hc]
    rw [mergerMapSize_append_one]
    simp only [hc, if_true, Nat.add_zero]
    exact h
  · rw [Bool.not_eq_true] at hc
    cases hs : lookupKV strategies kv.1 with
    | none =>
      rw [newMsgStep_eq_default strategies groupBy fs size kv hc hs]
      rw [mergerMapSize_append_one]
      simp only [hc, Bool.false_eq_true, if_false]
      simp only [wAdd]
      rw [h, Nat.mod_add_mod]
    | some strat =>
      cases hg : getValueMerger kv.2 strat with
      | error e =>
        rw [newMsgStep_eq_strat_err strategies groupBy fs size kv strat e hc hs hg]
        exact h
      | ok m =>
        rw [newMsgStep_eq_strat_ok strategies groupBy fs size kv strat m hc hs hg]
        rw [mergerMapSize_append_one]
        simp only [hc, Bool.false_eq_true, if_false]
        simp only [wAdd]
        rw [h, Nat.mod_add_mod]

/-- Fold form of `newMsgStep_size_inv`. -/
theorem newMsg_fold_size_inv (strategies : List (String × MergeStrategy))
    (groupBy : List String) (evfs : List (String × Value))
    (acc : List (String × Merger) × Nat)
    (h : acc.2 = mergerMapSize groupBy acc.1 % W) :
    (evfs.foldl (newMsgStep strategies groupBy) acc).2 =
      mergerMapSize groupBy
        (evfs.foldl (newMsgStep strategies groupBy) acc).1 % W := by
  induction evfs generalizing acc with
  | nil => exact h
  | cons kv rest ih =>
    rw [List.foldl_cons]
    exact ih _ (newMsgStep_size_inv strategies groupBy acc kv h)

/-- The size accumulated by the `ReduceState::add_event` message loop
tracks the non-group-by merger-size sum modulo the `usize` width,
provided group-by keys of the event are already present (the routing
invariant) and their mergers are discard mergers. -/
theorem addMsg_fold_size_inv (strategies : List (String × MergeStrategy))
    (groupBy : List String) (evfs : List (String × Value)) :
    ∀ (fs : List (String × Merger)) (size : Nat),
    size = mergerMapSize groupBy fs % W →
    (∀ kv ∈ evfs, groupBy.contains kv.1 = true → kv.1 ∈ keysOf fs) →
    (∀ km ∈ fs, groupBy.contains km.1 = true → km.2.isDiscard = true) →
    (evfs.foldl (addMsgStep strategies) (fs, size)).2 =
      mergerMapSize groupBy (evfs.foldl (addMsgStep strategies) (fs, size)).1 % W := by
  induction evfs with
  | nil =>
    intro fs size h _ _
    exact h
  | cons kv rest ih =>
    intro fs size h hkeys hdisc
    rw [List.foldl_cons]
    have hsizelt : size < W := by rw [h]; exact Nat.mod_lt _ wPos
    cases hl : lookupKV fs kv.1 with
    | none =>
      have hc : groupBy.contains kv.1 = false := by
        by_contra hcc
        rw [Bool.not_eq_false] at hcc
        have := hkeys kv (List.mem_cons_self _ _) hcc
        exact mem_keys_lookup_ne_none fs kv.1 this hl
      have hgrow : ∀ (m : Merger),
          (∀ kv2 ∈ rest, groupBy.contains kv2.1 = true →
            kv2.1 ∈ keysOf (fs ++ [(kv.1, m)])) ∧
          (∀ km ∈ fs ++ [(kv.1, m)], groupBy.contains km.1 = true →
            km.2.isDiscard = true) := by
        intro m
        constructor
        · intro kv2 hm hcc
          rw [keysOf_append]
          exact List.mem_append_left _ (hkeys kv2 (List.mem_cons_of_mem _ hm) hcc)
        · intro km hm hcc
          rcases List.mem_append.mp hm with hm | hm
          · exact hdisc km hm hcc
          · rcases List.mem_singleton.mp hm with rfl
            rw [hcc] at hc
            exact absurd hc (by simp)
      have hnewsize : ∀ (m : Merger),
          wAdd size m.sizeEstimate =
            mergerMapSize groupBy (fs ++ [(kv.1, m)]) % W := by
        intro m
        rw [mergerMapSize_append_one]
        simp only [hc, Bool.false_eq_true, if_false]
        simp only [wAdd]
        rw [h, Nat.mod_add_mod]
      cases hs : lookupKV strategies kv.1 with
      | none =>
        rw [addMsgStep_eq_vacant_default strategies fs size kv hl hs]
        exact ih _ _ (hnewsize _) (hgrow _).1 (hgrow _).2
      | some strat =>
        cases hg : getValueMerger kv.2 strat with
        | error e =>
          rw [addMsgStep_eq_vacant_strat_err strategies fs size kv strat e hl hs hg]
          exact ih _ _ h (fun kv2 hm => hkeys kv2 (List.mem_cons_of_mem _ hm)) hdisc
        | ok m =>
          rw [addMsgStep_eq_vacant_strat_ok strategies fs size kv strat m hl hs hg]
          exact ih _ _ (hnewsize m) (hgrow m).1 (hgrow m).2
    | some m =>
      cases ha : m.add kv.2 with
      | error e =>
        rw [addMsgStep_eq_occupied_err strategies fs size kv m e hl ha]
        exact ih _ _ h (fun kv2 hm => hkeys kv2 (List.mem_cons_of_mem _ hm)) hdisc
      | ok m2 =>
        rw [addMsgStep_eq_occupied_ok strategies fs size kv m m2 hl ha]
        by_cases hc : groupBy.contains kv.1 = true
        · have hdm : m.isDiscard = true :=
            hdisc (kv.1, m) (lookupKV_some_mem fs kv.1 m hl) hc
          have haok := discard_add_ok m kv.2 hdm
          rw [haok] at ha
          have hm2 : m2 = m := by
            cases ha
            rfl
          subst hm2
          rw [wSub_self, wAdd_zero, Nat.mod_eq_of_lt hsizelt]
          rw [insertKV_self_eq fs kv.1 m2 hl]
          exact ih _ _ h (fun kv2 hm => hkeys kv2 (List.mem_cons_of_mem _ hm)) hdisc
        · rw [Bool.not_eq_true] at hc
          have hins := mergerMapSize_insert groupBy fs kv.1 m m2 hl
          simp only [hc, Bool.false_eq_true, if_false] at hins
          have hkeysp : ∀ kv2 ∈ rest, groupBy.contains kv2.1 = true →
              kv2.1 ∈ keysOf (insertKV fs kv.1 m2) := by
            intro kv2 hm hcc
            rw [keysOf_insert_mem fs kv.1 m2 (lookupKV_some_mem_keys fs kv.1 m hl)]
            exact hkeys kv2 (List.mem_cons_of_mem _ hm) hcc
          have hdiscp : ∀ km ∈ insertKV fs kv.1 m2,
              groupBy.contains km.1 = true → km.2.isDiscard = true := by
            intro km hm hcc
            rcases mem_insertKV fs kv.1 m2 km hm with hm | hm
            · subst hm
              rw [hcc] at hc
              exact absurd hc (by simp)
            · exact hdisc km hm hcc
          have hnewsize : wAdd size (wSub m2.sizeEstimate m.sizeEstimate) =
              mergerMapSize groupBy (insertKV fs kv.1 m2) % W := by
            apply natEqModW _ _ (wAdd_lt _ _)
            rw [cast_wAdd, cast_wSub]
            have hcast : ((size : Nat) : ZMod W) =
                ((mergerMapSize groupBy fs : Nat) : ZMod W) := by
              rw [h, ZMod.natCast_mod]
            have hins2 : ((mergerMapSize groupBy (insertKV fs kv.1 m2) : Nat) : ZMod W) +
                m.sizeEstimate =
                ((mergerMapSize groupBy fs : Nat) : ZMod W) + m2.sizeEstimate := by
              have := congrArg (fun n => ((n : Nat) : ZMod W)) hins
              push_cast at this ⊢
              exact_mod_cast this
            rw [hcast]
            linear_combination -hins2
          exact ih _ _ hnewsize hkeysp hdiscp

/-! The claim theorems. -/

/-- C8: constructing a reducer from a configuration in which both
`starts_when` and `ends_when` are present fails at construction with an
error surfaced to the caller; construction succeeds only when at most
one of the two predicates is configured. -/
theorem claim_C8 {κ : Type} (config : MezmoReduceConfig κ)
    (build : κ → Except String (Value → Bool × Value))
    (e1 e2 : Option String) :
    (config.endsWhen.isSome = true → config.startsWhen.isSome = true →
      Reducer.new config build e1 e2 =
        .error "only one of `ends_when` and `starts_when` can be provided") ∧
    (∀ r, Reducer.new config build e1 e2 = .ok r →
      ¬(config.endsWhen.isSome = true ∧ config.startsWhen.isSome = true)) := by
  constructor
  · intro h1 h2
    rw [Reducer.new]
    simp [h1, h2]
  · intro r hok hboth
    rw [Reducer.new] at hok
    simp [hboth.1, hboth.2] at hok

/-- C8 witness: the concrete both-predicates configuration is rejected
with the construction error. -/
theorem claim_C8_witness :
    Reducer.new wC8cfg wC8build none none =
      .error "only one of `ends_when` and `starts_when` can be provided" :=
  (claim_C8 wC8cfg wC8build none none).1 rfl rfl

/-- C1: the claim says that when a `date_formats` field has timestamp
values at both the path and its `_end` counterpart but no kind was ever
recorded, flush warns and leaves the values unchanged and never panics.
The code disagrees: `MezmoMetadata::get_date_kind` looks the kind up
with `.expect(..)`, which panics when no kind was recorded; the
warn-and-continue arm of the match is unreachable for a genuinely
missing record.  This theorem evaluates the embedded code at the failing
input: the first event's `message.ts` is already a timestamp (so the
ingress parse fails and no kind is recorded), the second ends the group,
the flushed event holds timestamps at `ts` and `ts_end`, and the flush
hits the modelled panic (`none`). -/
theorem claim_C1_panics :
    (rC1.transformOne 0 chW evC1a).isSome = true ∧
    ((rC1.transformOne 0 chW evC1a).bind
      (fun x => x.1.transformOne 1 chW evC1b)) = none := by
  constructor
  · decide
  · rfl

/-- C10: an outer `message` that is present but not an object is removed
from the outer event and its value discarded entirely: the inner event
is treated as empty, and the whole per-event transformation behaves
exactly as if the event had arrived without the `message` field at all —
so the non-object value cannot reach any flushed output event. -/
theorem claim_C10 (ch : Chrono) (df kinds : List (String × String))
    (fs : List (String × Value)) (v : Value)
    (hnd : (keysOf fs).Nodup)
    (hm : lookupKV fs "message" = some v)
    (hv : v.isObject = false) :
    extractMessageEvent ch df kinds (.object fs) =
      (.object (eraseKV fs "message"), .object [], kinds) ∧
    (∀ (r : Reducer) (now : Nat),
      r.transformOne now ch (.object fs) =
        r.transformOne now ch (.object (eraseKV fs "message"))) := by
  have hext : extractMessageEvent ch df kinds (.object fs) =
      (.object (eraseKV fs "message"), .object [], kinds) := by
    rw [extractMessageEvent]
    simp only [Value.removeKey, hm]
    cases v with
    | object gs => simp [Value.isObject] at hv
    | null => rfl
    | bool b => rfl
    | int i => rfl
    | bytes s => rfl
    | timestamp t => rfl
    | array xs => rfl
  refine ⟨hext, ?_⟩
  intro r now
  have hleft : extractMessageEvent ch r.dateFormats r.dateKinds (.object fs) =
      (.object (eraseKV fs "message"), .object [], r.dateKinds) := by
    rw [extractMessageEvent]
    simp only [Value.removeKey, hm]
    cases v with
    | object gs => simp [Value.isObject] at hv
    | null => rfl
    | bool b => rfl
    | int i => rfl
    | bytes s => rfl
    | timestamp t => rfl
    | array xs => rfl
  have hnone : lookupKV (eraseKV fs "message") "message" = none :=
    lookupKV_erase_self fs "message" hnd
  have hright : extractMessageEvent ch r.dateFormats r.dateKinds
      (.object (eraseKV fs "message")) =
      (.object (eraseKV fs "message"), .object [], r.dateKinds) := by
    rw [extractMessageEvent]
    simp only [Value.removeKey, hnone]
    rw [eraseKV_of_none _ _ hnone]
  rw [Reducer.transformOne, Reducer.transformOne]
  have hre : r.routeEvent now ch (.object fs) =
      r.routeEvent now ch (.object (eraseKV fs "message")) := by
    rw [Reducer.routeEvent, Reducer.routeEvent, hleft, hright]
  rw [hre]

/-- C10 witness: the concrete event with a string `message` is processed
identically to the same event with `message` removed, and the extraction
discards the string. -/
theorem claim_C10_witness :
    extractMessageEvent chW [] [] (.object wC10ev) =
      (.object (eraseKV wC10ev "message"), .object [], []) ∧
    baseReducer.transformOne 0 chW (.object wC10ev) =
      baseReducer.transformOne 0 chW (.object (eraseKV wC10ev "message")) := by
  have h := claim_C10 chW [] [] wC10ev (.bytes "hello")
    (by decide) (by decide) (by decide)
  exact ⟨h.1, h.2 baseReducer 0⟩

theorem staleFlushStep_none_eq (ch : Chrono) (kinds : List (String × String))
    (kd : Nat × Discriminant) : staleFlushStep ch kinds none kd = none := rfl

theorem staleFlushStep_miss (ch : Chrono) (kinds : List (String × String))
    (states : List (Discriminant × ReduceState)) (out : List (Value × Bool))
    (tele : List Telemetry) (kd : Nat × Discriminant)
    (hl : lookupKV states kd.2 = none) :
    staleFlushStep ch kinds (some (states, out, tele)) kd =
      some (states, out, tele) := by
  simp [staleFlushStep, hl]

theorem staleFlushStep_panic (ch : Chrono) (kinds : List (String × String))
    (states : List (Discriminant × ReduceState)) (out : List (Value × Bool))
    (tele : List Telemetry) (kd : Nat × Discriminant) (st : ReduceState)
    (hl : lookupKV states kd.2 = some st)
    (hf : st.flush ch kinds = none) :
    staleFlushStep ch kinds (some (states, out, tele)) kd = none := by
  simp [staleFlushStep, hl, hf]

theorem staleFlushStep_hit (ch : Chrono) (kinds : List (String × String))
    (states : List (Discriminant × ReduceState)) (out : List (Value × Bool))
    (tele : List Telemetry) (kd : Nat × Discriminant) (st : ReduceState)
    (ev : Value)
    (hl : lookupKV states kd.2 = some st)
    (hf : st.flush ch kinds = some ev) :
    staleFlushStep ch kinds (some (states, out, tele)) kd =
      some (eraseKV states kd.2, out ++ [(ev, true)],
        tele ++ [Telemetry.reduceStaleEventFlushed]) := by
  simp [staleFlushStep, hl, hf]

/-- Every telemetry signal accumulated by the stale-flush loop is the
stale-flush signal. -/
theorem staleFlushLoop_tele (ch : Chrono) (dateKinds : List (String × String))
    (flushSet : List (Nat × Discriminant)) :
    ∀ (acc : Option (List (Discriminant × ReduceState) × List (Value × Bool) × List Telemetry)),
    (∀ a, acc = some a → ∀ t ∈ a.2.2, t = Telemetry.reduceStaleEventFlushed) →
    ∀ a2, flushSet.foldl (staleFlushStep ch dateKinds) acc = some a2 →
    ∀ t ∈ a2.2.2, t = Telemetry.reduceStaleEventFlushed := by
  induction flushSet with
  | nil =>
    intro acc hacc a2 hfold
    exact hacc a2 hfold
  | cons kd rest ih =>
    intro acc hacc a2 hfold
    rw [List.foldl_cons] at hfold
    refine ih _ ?_ a2 hfold
    intro a ha
    cases acc with
    | none =>
      rw [staleFlushStep_none_eq] at ha
      exact absurd ha (by simp)
    | some a0 =>
      obtain ⟨states, out, tele⟩ := a0
      cases hl : lookupKV states kd.2 with
      | none =>
        rw [staleFlushStep_miss ch dateKinds states out tele kd hl] at ha
        cases ha
        exact hacc _ rfl
      | some st =>
        cases hf : st.flush ch dateKinds with
        | none =>
          rw [staleFlushStep_panic ch dateKinds states out tele kd st hl hf] at ha
          exact absurd ha (by simp)
        | some ev =>
          rw [staleFlushStep_hit ch dateKinds states out tele kd st ev hl hf] at ha
          cases ha
          intro t ht
          rcases List.mem_append.mp ht with ht | ht
          · exact hacc (states, out, tele) rfl t ht
          · rcases List.mem_singleton.mp ht with rfl
            rfl

/-- Every telemetry signal emitted by `flush_into` is the stale-flush
signal. -/
theorem flushInto_tele (r : Reducer) (now : Nat) (ch : Chrono)
    (r2 : Reducer) (out : List (Value × Bool)) (tele : List Telemetry)
    (h : r.flushInto now ch = some (r2, out, tele)) :
    ∀ t ∈ tele, t = Telemetry.reduceStaleEventFlushed := by
  rw [Reducer.flushInto] at h
  cases hsl : staleFlushLoop ch r.dateKinds (flushScan r now).1 r.states with
  | none =>
    rw [hsl] at h
    exact absurd h (by simp)
  | some a =>
    obtain ⟨states, out0, tele0⟩ := a
    rw [hsl] at h
    dsimp only at h
    have htele0 : ∀ t ∈ tele0, t = Telemetry.reduceStaleEventFlushed := by
      intro t ht
      exact staleFlushLoop_tele ch r.dateKinds (flushScan r now).1 _
        (by intro a ha; cases ha; simp) _ hsl t ht
    by_cases hagg : r.byteThresholdAllStates < (flushScan r now).2
    · rw [if_pos hagg] at h
      cases hfa : Reducer.flushAllInto { r with states := states } ch with
      | none =>
        rw [hfa] at h
        exact absurd h (by simp)
      | some ra =>
        rw [hfa] at h
        cases h
        exact htele0
    · rw [if_neg hagg] at h
      cases h
      exact htele0

/-- C6 counterexample: the claim as stated — the size estimate equals
the sum over all inner-map mergers — fails at a state with a group-by
field: the group-by merger is in the map but not counted. -/
theorem claim_C6_counterexample :
    stC6.sizeEstimate = 5 ∧
    (stC6.messageFields.map (fun km => km.2.sizeEstimate)).sum = 6 ∧
    stC6.sizeEstimate ≠
      (stC6.messageFields.map (fun km => km.2.sizeEstimate)).sum := by
  refine ⟨by decide, by decide, by decide⟩

/-- C6 amended: after construction by `new` and after every `add_event`
(of an object-shaped inner event whose group-by keys are already present
in the state — the routing invariant — and whose group-by mergers are
discard mergers), the state's `size_estimate` equals, modulo the
`usize` width `2 ^ 64`, the sum of the current `size_estimate()` of the
inner-map mergers at keys NOT in `group_by`; outer-field mergers are
never accounted. -/
theorem claim_C6_amended :
    (∀ (ev mev : Value) (strategies : List (String × MergeStrategy))
       (df : List (String × String)) (groupBy : List String) (now : Nat),
      (ReduceState.new ev mev strategies df groupBy now).sizeEstimate =
        mergerMapSize groupBy
          (ReduceState.new ev mev strategies df groupBy now).messageFields % W) ∧
    (∀ (st : ReduceState) (ev : Value) (evfs : List (String × Value))
       (strategies : List (String × MergeStrategy)) (groupBy : List String),
      st.sizeEstimate = mergerMapSize groupBy st.messageFields % W →
      (∀ kv ∈ evfs, groupBy.contains kv.1 = true →
        kv.1 ∈ keysOf st.messageFields) →
      (∀ km ∈ st.messageFields, groupBy.contains km.1 = true →
        km.2.isDiscard = true) →
      (st.addEvent ev (.object evfs) strategies).sizeEstimate =
        mergerMapSize groupBy
          (st.addEvent ev (.object evfs) strategies).messageFields % W) := by
  constructor
  · intro ev mev strategies df groupBy now
    rw [ReduceState.new]
    exact newMsg_fold_size_inv strategies groupBy (msgFieldsOf mev) ([], 0)
      (by simp [mergerMapSize_nil])
  · intro st ev evfs strategies groupBy h hkeys hdisc
    rw [ReduceState.addEvent]
    exact addMsg_fold_size_inv strategies groupBy evfs st.messageFields
      st.sizeEstimate h hkeys hdisc

/-- C6 amended witness: the invariant applied at the concrete group-by
state, folding one more event. -/
theorem claim_C6_amended_witness :
    (stC6.addEvent (.object [])
        (.object [("g", .bytes "1"), ("x", .bytes "wow!")]) []).sizeEstimate =
      mergerMapSize ["g"]
        (stC6.addEvent (.object [])
          (.object [("g", .bytes "1"), ("x", .bytes "wow!")]) []).messageFields % W :=
  claim_C6_amended.2 stC6 (.object []) [("g", .bytes "1"), ("x", .bytes "wow!")]
    [] ["g"] (by decide) (by decide) (by decide)

/-- C7 counterexample: the claim says a wrapping size-arithmetic step
saturates at the maximum value.  At this input the post-add minus
pre-add delta of a `shortest_array` merger is negative, the `usize`
subtraction wraps to `2 ^ 64 - 7`, and the resulting state size is the
exact smaller total `4` — not the maximum of any width. -/
theorem claim_C7_counterexample :
    wSub (Merger.sizeEstimate (.shortestArrayM [.bytes "c"]))
        (Merger.sizeEstimate (.shortestArrayM [.bytes "aaaa", .bytes "bbbb"])) =
      W - 7 ∧
    (stC7.addEvent (.object [])
        (.object [("k", .array [.bytes "c"])]) stratC7).sizeEstimate = 4 ∧
    (4 : Nat) ≠ W - 1 ∧ (4 : Nat) ≠ 2 ^ 63 - 1 := by
  refine ⟨by decide, by decide, by decide, by decide⟩

/-- C7 amended: the size accounting never panics in the embedded
(release-build) semantics and never saturates: a successful merge at an
occupied key updates the running size by the wrapping difference of the
post-add and pre-add estimates, the result stays below `2 ^ 64`, and it
equals the true value `size + post - pre` modulo `2 ^ 64` (exact
whenever that value is in `usize` range). -/
theorem claim_C7_amended (strategies : List (String × MergeStrategy))
    (fs : List (String × Merger)) (size : Nat) (kv : String × Value)
    (m m2 : Merger)
    (hm : lookupKV fs kv.1 = some m) (hadd : m.add kv.2 = .ok m2) :
    (addMsgStep strategies (fs, size) kv).2 =
      wAdd size (wSub m2.sizeEstimate m.sizeEstimate) ∧
    (addMsgStep strategies (fs, size) kv).2 < W ∧
    ((addMsgStep strategies (fs, size) kv).2 : ZMod W) =
      (size : ZMod W) + m2.sizeEstimate - m.sizeEstimate := by
  rw [addMsgStep_eq_occupied_ok strategies fs size kv m m2 hm hadd]
  refine ⟨rfl, wAdd_lt _ _, ?_⟩
  rw [cast_wAdd, cast_wSub]
  ring

/-- C7 amended witness: the shrinking `shortest_array` step evaluated
concretely. -/
theorem claim_C7_amended_witness :
    (addMsgStep stratC7
        ([("k", Merger.shortestArrayM [.bytes "aaaa", .bytes "bbbb"])], 11)
        ("k", .array [.bytes "c"])).2 = wAdd 11 (wSub 1 8) ∧
    (addMsgStep stratC7
        ([("k", Merger.shortestArrayM [.bytes "aaaa", .bytes "bbbb"])], 11)
        ("k", .array [.bytes "c"])).2 < W ∧
    ((addMsgStep stratC7
        ([("k", Merger.shortestArrayM [.bytes "aaaa", .bytes "bbbb"])], 11)
        ("k", .array [.bytes "c"])).2 : ZMod W) = (11 : ZMod W) + 1 - 8 := by
  have h := claim_C7_amended stratC7
    [("k", Merger.shortestArrayM [.bytes "aaaa", .bytes "bbbb"])] 11
    ("k", .array [.bytes "c"]) (.shortestArrayM [.bytes "aaaa", .bytes "bbbb"])
    (.shortestArrayM [.bytes "c"]) rfl rfl
  exact ⟨h.1, h.2.1, h.2.2⟩

/-- C9 counterexample: an incompatible merge (`concat` over an integer)
during this concrete `transform_one` emits no telemetry at all — in
particular the `failed_updates` counter (`MezmoAggregateUpdateFailed`)
is never incremented, contrary to the claim; the merger is left
unchanged. -/
theorem claim_C9_counterexample :
    (rC9.transformOne 1 chW evC9).map
      (fun x => (x.2.2.count Telemetry.aggregateUpdateFailed,
        (lookupKV x.1.states ([] : Discriminant)).map
          (fun st => st.messageFields))) =
      some (0, some [("k", Merger.concatM (.bytes "a"))]) := by
  decide

/-- C9 amended: when a merger's `add` returns a failure the offending
value is dropped and the merger, field map and running size are left
exactly unchanged; only a warning is logged — the reduce transform
increments no `failed_updates` counter (every telemetry signal any
`transform_one` can emit is the stale-flush signal). -/
theorem claim_C9_amended :
    (∀ (strategies : List (String × MergeStrategy))
       (fs : List (String × Merger)) (size : Nat) (kv : String × Value)
       (m : Merger) (e : String),
      lookupKV fs kv.1 = some m → m.add kv.2 = .error e →
      addMsgStep strategies (fs, size) kv = (fs, size)) ∧
    (∀ (r : Reducer) (now : Nat) (ch : Chrono) (ev : Value)
       (r2 : Reducer) (out : List (Value × Bool)) (tele : List Telemetry),
      r.transformOne now ch ev = some (r2, out, tele) →
      (∀ t ∈ tele, t = Telemetry.reduceStaleEventFlushed) ∧
      tele.count Telemetry.aggregateUpdateFailed = 0) := by
  constructor
  · intro strategies fs size kv m e hl ha
    exact addMsgStep_eq_occupied_err strategies fs size kv m e hl ha
  · intro r now ch ev r2 out tele h
    rw [Reducer.transformOne] at h
    cases hroute : r.routeEvent now ch ev with
    | none =>
      rw [hroute] at h
      exact absurd h (by simp)
    | some p =>
      obtain ⟨rr, out1⟩ := p
      rw [hroute] at h
      dsimp only at h
      cases hfi : rr.flushInto now ch with
      | none =>
        rw [hfi] at h
        exact absurd h (by simp)
      | some q =>
        obtain ⟨rq, outq, teleq⟩ := q
        rw [hfi] at h
        dsimp only at h
        cases h
        have hstale := flushInto_tele rr now ch _ _ _ hfi
        refine ⟨hstale, ?_⟩
        rw [List.count_eq_zero]
        intro hmem
        have := hstale _ hmem
        exact Telemetry.noConfusion this

/-- C9 witness: the failing-`add` identity applied at the concrete
`concat`-over-integer input, and the telemetry statement applied to a
run that does emit a (stale) signal. -/
theorem claim_C9_witness :
    addMsgStep [("k", MergeStrategy.concat)]
        ([("k", Merger.concatM (.bytes "a"))], 1) ("k", .int 5) =
      ([("k", Merger.concatM (.bytes "a"))], 1) ∧
    (rC9stale.transformOne 100 chW evC9).map
        (fun x => x.2.2.count Telemetry.aggregateUpdateFailed) = some 0 := by
  constructor
  · exact claim_C9_amended.1 [("k", MergeStrategy.concat)]
      [("k", Merger.concatM (.bytes "a"))] 1 ("k", .int 5)
      (.concatM (.bytes "a")) "concat: incompatible type" rfl rfl
  · have h := claim_C9_amended.2 rC9stale 100 chW evC9
    cases hrun : rC9stale.transformOne 100 chW evC9 with
    | none =>
      have hs : (rC9stale.transformOne 100 chW evC9).isSome = true := by decide
      rw [hrun] at hs
      simp at hs
    | some q =>
      obtain ⟨rq, outq, teleq⟩ := q
      have h2 := h rq outq teleq hrun
      simp [h2.2]

/-- `push_or_new_reduce_state` on a vacant discriminant inserts a fresh
state seeded by the event. -/
theorem pushOrNew_vacant (r : Reducer) (event mev : Value)
    (disc : Discriminant) (now : Nat)
    (hl : lookupKV r.states disc = none) :
    r.pushOrNewReduceState event mev disc now =
      { r with
        states :=
          insertKV r.states disc
            (ReduceState.new event mev r.mergeStrategies r.dateFormats
              r.groupBy now) } := by
  rw [Reducer.pushOrNewReduceState, hl]

/-- `push_or_new_reduce_state` on an occupied discriminant folds the
event into the existing state. -/
theorem pushOrNew_occupied (r : Reducer) (event mev : Value)
    (disc : Discriminant) (now : Nat) (st : ReduceState)
    (hl : lookupKV r.states disc = some st) :
    r.pushOrNewReduceState event mev disc now =
      { r with
        states :=
          insertKV r.states disc
            (st.addEvent event mev r.mergeStrategies) } := by
  rw [Reducer.pushOrNewReduceState, hl]

/-- C2: the routing of `transform_one`.  If `starts_when` fired, the
existing state for the discriminant (if any) is flushed — without the
current event folded in — and replaced by a fresh state seeded by the
current event.  Otherwise, if `ends_when` fired, the current event is
folded into the state (one is created from it if none exists), the
result is flushed, and no state remains for the discriminant.
Otherwise the event is folded into the existing state or starts a new
one, with no output. -/
theorem claim_C2 (r : Reducer) (now : Nat) (ch : Chrono)
    (startsHere endsHere : Bool) (event messageEvent : Value)
    (disc : Discriminant) (r2 : Reducer) (out : List (Value × Bool))
    (hnd : (keysOf r.states).Nodup)
    (hroute : r.route now ch startsHere endsHere event messageEvent disc =
      some (r2, out)) :
    (startsHere = true →
      r2.states =
        insertKV (eraseKV r.states disc) disc
          (ReduceState.new event messageEvent r.mergeStrategies r.dateFormats
            r.groupBy now) ∧
      lookupKV r2.states disc =
        some (ReduceState.new event messageEvent r.mergeStrategies
          r.dateFormats r.groupBy now) ∧
      (∀ st, lookupKV r.states disc = some st →
        ∃ ev, st.flush ch r.dateKinds = some ev ∧ out = [(ev, false)]) ∧
      (lookupKV r.states disc = none → out = [])) ∧
    (startsHere = false → endsHere = true →
      r2.states = eraseKV r.states disc ∧
      lookupKV r2.states disc = none ∧
      (∀ st, lookupKV r.states disc = some st →
        ∃ ev, (st.addEvent event messageEvent r.mergeStrategies).flush ch
            r.dateKinds = some ev ∧ out = [(ev, false)]) ∧
      (lookupKV r.states disc = none →
        ∃ ev, (ReduceState.new event messageEvent r.mergeStrategies
            r.dateFormats r.groupBy now).flush ch r.dateKinds = some ev ∧
          out = [(ev, false)])) ∧
    (startsHere = false → endsHere = false →
      out = [] ∧
      (∀ st, lookupKV r.states disc = some st →
        r2.states =
          insertKV r.states disc
            (st.addEvent event messageEvent r.mergeStrategies)) ∧
      (lookupKV r.states disc = none →
        lookupKV r2.states disc =
          some (ReduceState.new event messageEvent r.mergeStrategies
            r.dateFormats r.groupBy now))) := by
  refine ⟨?_, ?_, ?_⟩
  · intro hs
    subst hs
    rw [Reducer.route, if_pos rfl] at hroute
    cases hl : lookupKV r.states disc with
    | some st =>
      rw [hl] at hroute
      dsimp only at hroute
      cases hf : st.flush ch r.dateKinds with
      | none =>
        rw [hf] at hroute
        exact absurd hroute (by simp)
      | some ev =>
        rw [hf] at hroute
        dsimp only at hroute
        have hvac : lookupKV (eraseKV r.states disc) disc = none :=
          lookupKV_erase_self r.states disc hnd
        rw [pushOrNew_vacant _ event messageEvent disc now hvac] at hroute
        cases hroute
        refine ⟨rfl, lookupKV_insert_self _ _ _, ?_, ?_⟩
        · intro st2 hst2
          cases hst2
          exact ⟨ev, hf, rfl⟩
        · intro hnone
          exact absurd hnone (by simp)
    | none =>
      rw [hl] at hroute
      dsimp only at hroute
      rw [pushOrNew_vacant _ event messageEvent disc now hl] at hroute
      cases hroute
      have herase : eraseKV r.states disc = r.states := eraseKV_of_none _ _ hl
      refine ⟨by rw [herase], lookupKV_insert_self _ _ _, ?_, ?_⟩
      · intro st2 hst2
        exact absurd hst2 (by simp)
      · intro _
        rfl
  · intro hs he
    subst hs
    subst he
    rw [Reducer.route, if_neg (by simp), if_pos rfl] at hroute
    cases hl : lookupKV r.states disc with
    | some st =>
      rw [hl] at hroute
      dsimp only at hroute
      cases hf : (st.addEvent event messageEvent r.mergeStrategies).flush ch
          r.dateKinds with
      | none =>
        rw [hf] at hroute
        exact absurd hroute (by simp)
      | some ev =>
        rw [hf] at hroute
        dsimp only at hroute
        cases hroute
        refine ⟨rfl, lookupKV_erase_self r.states disc hnd, ?_, ?_⟩
        · intro st2 hst2
          cases hst2
          exact ⟨ev, hf, rfl⟩
        · intro hnone
          exact absurd hnone (by simp)
    | none =>
      rw [hl] at hroute
      dsimp only at hroute
      cases hf : (ReduceState.new event messageEvent r.mergeStrategies
          r.dateFormats r.groupBy now).flush ch r.dateKinds with
      | none =>
        rw [hf] at hroute
        exact absurd hroute (by simp)
      | some ev =>
        rw [hf] at hroute
        dsimp only at hroute
        cases hroute
        have herase : eraseKV r.states disc = r.states := eraseKV_of_none _ _ hl
        refine ⟨herase.symm, hl, ?_, ?_⟩
        · intro st2 hst2
          exact absurd hst2 (by simp)
        · intro _
          exact ⟨ev, rfl, rfl⟩
  · intro hs he
    subst hs
    subst he
    rw [Reducer.route, if_neg (by simp), if_neg (by simp)] at hroute
    cases hl : lookupKV r.states disc with
    | some st =>
      rw [pushOrNew_occupied _ event messageEvent disc now st hl] at hroute
      cases hroute
      refine ⟨rfl, ?_, ?_⟩
      · intro st2 hst2
        cases hst2
        rfl
      · intro hnone
        exact absurd hnone (by simp)
    | none =>
      rw [pushOrNew_vacant _ event messageEvent disc now hl] at hroute
      cases hroute
      refine ⟨rfl, ?_, ?_⟩
      · intro st2 hst2
        exact absurd hst2 (by simp)
      · intro _
        exact lookupKV_insert_self _ _ _

/-- C2 witness: a firing `starts_when` on a live state flushes the old
state unfolded and creates the fresh seeded state. -/
theorem claim_C2_witness :
    wC2r2.states = insertKV (eraseKV wC2r.states []) [] wC2new ∧
    lookupKV wC2r2.states ([] : Discriminant) = some wC2new := by
  have h := claim_C2 wC2r 5 chW true false (.object [])
    (.object [("y", .int 1)]) [] wC2r2 [(wC2flushed, false)]
    (by decide) rfl
  exact ⟨(h.1 rfl).1, (h.1 rfl).2.1⟩

/-- Inserting at a different key leaves a top-level value untouched. -/
theorem getKey_insertKey_ne (v : Value) (k1 k2 : String) (val : Value)
    (h : k1 ≠ k2) : (v.insertKey k1 val).getKey k2 = v.getKey k2 := by
  cases v with
  | object fs => exact lookupKV_insert_ne fs k1 k2 val h
  | null => rfl
  | bool b => rfl
  | int i => rfl
  | bytes s => rfl
  | timestamp t => rfl
  | array xs => rfl

/-- Inserting at a key of an object makes it readable. -/
theorem getKey_insertKey_obj (fs : List (String × Value)) (k : String)
    (val : Value) : ((Value.object fs).insertKey k val).getKey k = some val :=
  lookupKV_insert_self fs k val

/-- A merger write at another key (and its `_end` sibling) leaves the
binding for `k` unchanged. -/
theorem writeInto_preserves (m : Merger) (k2 k : String)
    (cur : List (String × Value)) (hk : k2 ≠ k) (hke : ¬ k2 ++ "_end" = k) :
    lookupKV (m.writeInto k2 cur) k = lookupKV cur k := by
  cases m with
  | timestampWindow f l =>
    rw [Merger.writeInto]
    rw [lookupKV_insert_ne _ _ _ _ hke, lookupKV_insert_ne _ _ _ _ hk]
  | discard v => exact lookupKV_insert_ne _ _ _ _ hk
  | retain v => exact lookupKV_insert_ne _ _ _ _ hk
  | sumM n => exact lookupKV_insert_ne _ _ _ _ hk
  | maxM n => exact lookupKV_insert_ne _ _ _ _ hk
  | minM n => exact lookupKV_insert_ne _ _ _ _ hk
  | arrayM xs => exact lookupKV_insert_ne _ _ _ _ hk
  | concatM acc => exact lookupKV_insert_ne _ _ _ _ hk
  | concatNewlineM s => exact lookupKV_insert_ne _ _ _ _ hk
  | concatRawM s => exact lookupKV_insert_ne _ _ _ _ hk
  | shortestArrayM xs => exact lookupKV_insert_ne _ _ _ _ hk
  | longestArrayM xs => exact lookupKV_insert_ne _ _ _ _ hk
  | flatUniqueM xs => exact lookupKV_insert_ne _ _ _ _ hk

/-- A discard merger finalizes its stored first value. -/
theorem writeInto_discard (v : Value) (k : String)
    (cur : List (String × Value)) :
    (Merger.discard v).writeInto k cur = insertKV cur k v := rfl

/-- The `new` message loop never loses an existing merger binding. -/
theorem newMsg_fold_preserve (strategies : List (String × MergeStrategy))
    (groupBy : List String) (evfs : List (String × Value)) :
    ∀ (acc : List (String × Merger) × Nat) (k : String) (m : Merger),
    lookupKV acc.1 k = some m →
    lookupKV ((evfs.foldl (newMsgStep strategies groupBy) acc).1) k = some m := by
  induction evfs with
  | nil =>
    intro acc k m h
    exact h
  | cons kv rest ih =>
    intro acc k m h
    rw [List.foldl_cons]
    refine ih _ k m ?_
    obtain ⟨fs, size⟩ := acc
    by_cases hc : groupBy.contains kv.1 = true
    · rw [newMsgStep_eq_group strategies groupBy fs size kv hc]
      exact lookupKV_append_some _ _ _ _ h
    · rw [Bool.not_eq_true] at hc
      cases hs : lookupKV strategies kv.1 with
      | none =>
        rw [newMsgStep_eq_default strategies groupBy fs size kv hc hs]
        exact lookupKV_append_some _ _ _ _ h
      | some strat =>
        cases hg : getValueMerger kv.2 strat with
        | error e =>
          rw [newMsgStep_eq_strat_err strategies groupBy fs size kv strat e hc hs hg]
          exact h
        | ok m2 =>
          rw [newMsgStep_eq_strat_ok strategies groupBy fs size kv strat m2 hc hs hg]
          exact lookupKV_append_some _ _ _ _ h

/-- The `new` message loop assigns a discard merger holding the first
observed value to every group-by key. -/
theorem newMsg_fold_group (strategies : List (String × MergeStrategy))
    (groupBy : List String) (evfs : List (String × Value)) :
    ∀ (acc : List (String × Merger) × Nat) (k : String) (v : Value),
    groupBy.contains k = true →
    lookupKV evfs k = some v →
    lookupKV acc.1 k = none →
    lookupKV ((evfs.foldl (newMsgStep strategies groupBy) acc).1) k =
      some (Merger.discard v) := by
  induction evfs with
  | nil =>
    intro acc k v _ hk _
    simp [lookupKV] at hk
  | cons kv rest ih =>
    intro acc k v hc hk hacc
    obtain ⟨fs, size⟩ := acc
    rw [List.foldl_cons]
    by_cases heq : kv.1 = k
    · rw [lookupKV, if_pos heq] at hk
      cases hk
      have hck : groupBy.contains kv.1 = true := by rw [heq]; exact hc
      rw [newMsgStep_eq_group strategies groupBy fs size kv hck]
      refine newMsg_fold_preserve strategies groupBy rest _ k _ ?_
      rw [lookupKV_append_none _ _ _ hacc]
      rw [lookupKV, if_pos heq]
    · rw [lookupKV, if_neg heq] at hk
      have hstep : lookupKV ((newMsgStep strategies groupBy (fs, size) kv).1) k = none := by
        by_cases hc2 : groupBy.contains kv.1 = true
        · rw [newMsgStep_eq_group strategies groupBy fs size kv hc2]
          rw [lookupKV_append_none _ _ _ hacc, lookupKV, if_neg heq]
          rfl
        · rw [Bool.not_eq_true] at hc2
          cases hs : lookupKV strategies kv.1 with
          | none =>
            rw [newMsgStep_eq_default strategies groupBy fs size kv hc2 hs]
            rw [lookupKV_append_none _ _ _ hacc, lookupKV, if_neg heq]
            rfl
          | some strat =>
            cases hg : getValueMerger kv.2 strat with
            | error e =>
              rw [newMsgStep_eq_strat_err strategies groupBy fs size kv strat e hc2 hs hg]
              exact hacc
            | ok m2 =>
              rw [newMsgStep_eq_strat_ok strategies groupBy fs size kv strat m2 hc2 hs hg]
              rw [lookupKV_append_none _ _ _ hacc, lookupKV, if_neg heq]
              rfl
      exact ih _ k v hc hk hstep

/-- The `add_event` message loop keeps a discard merger a discard merger
with the same stored value, whatever the later events carry. -/
theorem addMsg_fold_discard (strategies : List (String × MergeStrategy))
    (evfs : List (String × Value)) :
    ∀ (acc : List (String × Merger) × Nat) (k : String) (v : Value),
    lookupKV acc.1 k = some (Merger.discard v) →
    lookupKV ((evfs.foldl (addMsgStep strategies) acc).1) k =
      some (Merger.discard v) := by
  induction evfs with
  | nil =>
    intro acc k v h
    exact h
  | cons kv rest ih =>
    intro acc k v h
    obtain ⟨fs, size⟩ := acc
    rw [List.foldl_cons]
    refine ih _ k v ?_
    cases hl : lookupKV fs kv.1 with
    | none =>
      have hne : kv.1 ≠ k := by
        intro heq
        rw [heq, h] at hl
        exact Option.noConfusion hl
      cases hs : lookupKV strategies kv.1 with
      | none =>
        rw [addMsgStep_eq_vacant_default strategies fs size kv hl hs]
        exact lookupKV_append_some _ _ _ _ h
      | some strat =>
        cases hg : getValueMerger kv.2 strat with
        | error e =>
          rw [addMsgStep_eq_vacant_strat_err strategies fs size kv strat e hl hs hg]
          exact h
        | ok m2 =>
          rw [addMsgStep_eq_vacant_strat_ok strategies fs size kv strat m2 hl hs hg]
          exact lookupKV_append_some _ _ _ _ h
    | some m =>
      by_cases heq : kv.1 = k
      · have hm : m = Merger.discard v := by
          rw [heq, h] at hl
          exact (Option.some.inj hl).symm
        subst hm
        have ha : (Merger.discard v).add kv.2 = .ok (Merger.discard v) := rfl
        rw [addMsgStep_eq_occupied_ok strategies fs size kv _ _ hl ha]
        rw [heq]
        exact lookupKV_insert_self _ _ _
      · cases ha : m.add kv.2 with
        | error e =>
          rw [addMsgStep_eq_occupied_err strategies fs size kv m e hl ha]
          exact h
        | ok m2 =>
          rw [addMsgStep_eq_occupied_ok strategies fs size kv m m2 hl ha]
          rw [lookupKV_insert_ne _ _ _ _ heq]
          exact h

/-- Later message-field writes at non-interfering keys keep the value
written for `k` inside the `message` object. -/
theorem msgfold_preserves (ms : List (String × Merger)) (k : String) (v : Value) :
    ∀ (fs : List (String × Value)) (mfs : List (String × Value)),
    lookupKV fs "message" = some (.object mfs) →
    lookupKV mfs k = some v →
    (∀ km ∈ ms, km.1 ≠ k ∧ ¬ km.1 ++ "_end" = k) →
    ∃ mfs2, lookupKV (ms.foldl insertMessageMerger fs) "message" =
      some (Value.object mfs2) ∧ lookupKV mfs2 k = some v := by
  induction ms with
  | nil =>
    intro fs mfs hm hv _
    exact ⟨mfs, hm, hv⟩
  | cons km rest ih =>
    intro fs mfs hm hv hsafe
    rw [List.foldl_cons]
    have hkm := hsafe km (List.mem_cons_self _ _)
    refine ih _ (km.2.writeInto km.1 mfs) ?_ ?_
      (fun km2 hm2 => hsafe km2 (List.mem_cons_of_mem _ hm2))
    · rw [insertMessageMerger, hm]
      exact lookupKV_insert_self _ _ _
    · rw [writeInto_preserves km.2 km.1 k mfs hkm.1 hkm.2]
      exact hv

/-- The message-field loop of `flush` writes the discard merger's value
at `k` inside the `message` object, and no later write disturbs it. -/
theorem msgfold_writes (ms : List (String × Merger)) (k : String) (v : Value) :
    ∀ (fs : List (String × Value)),
    lookupKV ms k = some (Merger.discard v) →
    (keysOf ms).Nodup →
    (∀ km ∈ ms, ¬ km.1 ++ "_end" = k) →
    ∃ mfs2, lookupKV (ms.foldl insertMessageMerger fs) "message" =
      some (Value.object mfs2) ∧ lookupKV mfs2 k = some v := by
  induction ms with
  | nil =>
    intro fs h _ _
    simp [lookupKV] at h
  | cons km rest ih =>
    intro fs h hnd hsafe
    rw [keysOf_cons, List.nodup_cons] at hnd
    rw [List.foldl_cons]
    by_cases heq : km.1 = k
    · rw [lookupKV, if_pos heq] at h
      have hkm2 : km.2 = Merger.discard v := Option.some.inj h
      have hcur : lookupKV (insertMessageMerger fs km) "message" =
          some (Value.object (km.2.writeInto km.1
            (match lookupKV fs "message" with
              | some (.object mfs) => mfs
              | _ => []))) := by
        rw [insertMessageMerger]
        exact lookupKV_insert_self _ _ _
      refine msgfold_preserves rest k v _ _ hcur ?_ ?_
      · rw [hkm2, writeInto_discard, heq]
        exact lookupKV_insert_self _ _ _
      · intro km2 hm2
        constructor
        · intro heq2
          rw [← heq] at heq2
          exact hnd.1 (heq2 ▸ (List.mem_map_of_mem Prod.fst hm2))
        · exact hsafe km2 (List.mem_cons_of_mem _ hm2)
    · rw [lookupKV, if_neg heq] at h
      exact ih _ h hnd.2 (fun km2 hm2 => hsafe km2 (List.mem_cons_of_mem _ hm2))

/-- A panic propagates through the rest of the egress fold. -/
theorem coerceFold_none (ch : Chrono) (dk : List (String × String))
    (df : List (String × String)) :
    df.foldl (coerceFromStep ch dk) none = none := by
  induction df with
  | nil => rfl
  | cons pf rest ih =>
    rw [List.foldl_cons]
    exact ih

/-- The egress coercion fold touches only configured properties and
their `_end` siblings. -/
theorem coerceFold_preserves (ch : Chrono) (dk : List (String × String))
    (df : List (String × String)) (k : String) :
    (∀ pf ∈ df, ¬ pf.1 = k ∧ ¬ pf.1 ++ "_end" = k) →
    ∀ (m0 res : Value),
    df.foldl (coerceFromStep ch dk) (some m0) = some res →
    res.getKey k = m0.getKey k := by
  induction df with
  | nil =>
    intro _ m0 res h
    cases h
    rfl
  | cons pf rest ih =>
    intro hdf m0 res h
    rw [List.foldl_cons] at h
    have hpf := hdf pf (List.mem_cons_self _ _)
    rw [coerceFromStep] at h
    cases hstep : coercePropFrom ch dk pf.1 pf.2 m0 with
    | none =>
      rw [hstep] at h
      rw [coerceFold_none ch dk rest] at h
      exact Option.noConfusion h
    | some m1 =>
      rw [hstep] at h
      have hm1 : m1.getKey k = m0.getKey k := by
        rw [coercePropFrom] at hstep
        cases hp : m0.getKey pf.1 with
        | none =>
          rw [hp] at hstep
          dsimp only at hstep
          cases hstep
          rfl
        | some pv =>
          rw [hp] at hstep
          cases pv with
          | timestamp ts =>
            cases hpe : m0.getKey (pf.1 ++ "_end") with
            | none =>
              rw [hpe] at hstep
              dsimp only at hstep
              cases hstep
              rfl
            | some pev =>
              rw [hpe] at hstep
              cases pev with
              | timestamp te =>
                dsimp only at hstep
                cases hkind : lookupKV dk pf.1 with
                | none =>
                  rw [hkind] at hstep
                  exact absurd hstep (by simp)
                | some kind =>
                  rw [hkind] at hstep
                  dsimp only at hstep
                  by_cases hks : kind = "string"
                  · rw [if_pos hks] at hstep
                    cases hstep
                    rw [getKey_insertKey_ne _ _ _ _ hpf.2,
                      getKey_insertKey_ne _ _ _ _ hpf.1]
                  · rw [if_neg hks] at hstep
                    by_cases hki : kind = "integer"
                    · rw [if_pos hki] at hstep
                      cases hstep
                      rw [getKey_insertKey_ne _ _ _ _ hpf.2,
                        getKey_insertKey_ne _ _ _ _ hpf.1]
                    · rw [if_neg hki] at hstep
                      cases hstep
                      rfl
              | null => cases hstep; rfl
              | bool b => cases hstep; rfl
              | int i => cases hstep; rfl
              | bytes s => cases hstep; rfl
              | array xs => cases hstep; rfl
              | object gs => cases hstep; rfl
          | null => cases hstep; rfl
          | bool b => cases hstep; rfl
          | int i => cases hstep; rfl
          | bytes s => cases hstep; rfl
          | array xs => cases hstep; rfl
          | object gs => cases hstep; rfl
      rw [ih (fun pf2 hm2 => hdf pf2 (List.mem_cons_of_mem _ hm2)) m1 res h]
      exact hm1

/-- C4: group-by keys always get the discard merger, whatever merge
strategy the user configured for them, so the flushed event's value at a
group-by key is the first value observed for the group: `new` assigns a
discard merger holding the seed value, every later `add_event` leaves
that merger (and its stored value) unchanged, and `flush` writes the
stored first value at `message.<key>` (undisturbed by other writers or
the egress coercion at non-interfering keys). -/
theorem claim_C4 :
    (∀ (ev : Value) (fs0 : List (String × Value))
       (strategies : List (String × MergeStrategy))
       (df : List (String × String)) (groupBy : List String) (now : Nat)
       (k : String) (v : Value),
      groupBy.contains k = true →
      lookupKV fs0 k = some v →
      lookupKV (ReduceState.new ev (.object fs0) strategies df groupBy
        now).messageFields k = some (Merger.discard v)) ∧
    (∀ (st : ReduceState) (ev mev : Value)
       (strategies : List (String × MergeStrategy)) (k : String) (v : Value),
      lookupKV st.messageFields k = some (Merger.discard v) →
      lookupKV (st.addEvent ev mev strategies).messageFields k =
        some (Merger.discard v)) ∧
    (∀ (st : ReduceState) (ch : Chrono) (dk : List (String × String))
       (k : String) (v : Value) (out : Value),
      lookupKV st.messageFields k = some (Merger.discard v) →
      (keysOf st.messageFields).Nodup →
      (∀ km ∈ st.messageFields, ¬ km.1 ++ "_end" = k) →
      (∀ pf ∈ st.dateFormats, ¬ pf.1 = k ∧ ¬ pf.1 ++ "_end" = k) →
      st.flush ch dk = some out →
      (out.getKey "message").bind (fun m => m.getKey k) = some v) := by
  refine ⟨?_, ?_, ?_⟩
  · intro ev fs0 strategies df groupBy now k v hc hseed
    rw [ReduceState.new]
    exact newMsg_fold_group strategies groupBy fs0 ([], 0) k v hc hseed rfl
  · intro st ev mev strategies k v h
    rw [ReduceState.addEvent]
    exact addMsg_fold_discard strategies (msgFieldsOf mev)
      (st.messageFields, st.sizeEstimate) k v h
  · intro st ch dk k v out h hnd hsafe hdf hout
    rw [ReduceState.flush] at hout
    obtain ⟨mfs2, hw, hv⟩ := msgfold_writes st.messageFields k v
      (st.fields.foldl (fun fs km => km.2.writeInto km.1 fs) []) h hnd hsafe
    by_cases hdf0 : st.dateFormats = []
    · rw [ReduceState.coerceFromTimestampIfNeeded, if_pos hdf0] at hout
      cases hout
      show (lookupKV (st.messageFields.foldl insertMessageMerger
        (st.fields.foldl (fun fs km => km.2.writeInto km.1 fs) [])) "message").bind
          (fun m => m.getKey k) = some v
      rw [hw]
      exact hv
    · rw [ReduceState.coerceFromTimestampIfNeeded, if_neg hdf0] at hout
      have hget : (Value.object (st.messageFields.foldl insertMessageMerger
          (st.fields.foldl (fun fs km => km.2.writeInto km.1 fs) []))).getKey
          "message" = some (Value.object mfs2) := hw
      rw [hget] at hout
      dsimp only at hout
      cases hfold : st.dateFormats.foldl (coerceFromStep ch dk)
          (some (Value.object mfs2)) with
      | none =>
        rw [hfold] at hout
        exact absurd hout (by simp)
      | some msg1 =>
        rw [hfold] at hout
        dsimp only at hout
        cases hout
        have hmsg1 : msg1.getKey k = (Value.object mfs2).getKey k :=
          coerceFold_preserves ch dk st.dateFormats k hdf _ _ hfold
        show (((Value.object (st.messageFields.foldl insertMessageMerger
          (st.fields.foldl (fun fs km => km.2.writeInto km.1 fs) []))).insertKey
            "message" msg1).getKey "message").bind (fun m => m.getKey k) = some v
        rw [getKey_insertKey_obj]
        show msg1.getKey k = some v
        rw [hmsg1]
        exact hv

/-- C4 witness: the concrete group-by state — discard merger at `g`
after `new`, still there after an `add_event` with a different value,
and the flushed event carries the first value at `message.g`. -/
theorem claim_C4_witness :
    lookupKV stC6.messageFields "g" = some (Merger.discard (.bytes "1")) ∧
    lookupKV (stC6.addEvent (.object []) (.object [("g", .bytes "2")])
      []).messageFields "g" = some (Merger.discard (.bytes "1")) ∧
    (wC2flushed.getKey "message").bind (fun m => m.getKey "g") =
      some (.bytes "1") := by
  refine ⟨?_, ?_, ?_⟩
  · exact claim_C4.1 (.object []) [("g", .bytes "1"), ("x", .bytes "hello")]
      [] [] ["g"] 0 "g" (.bytes "1") (by decide) (by decide)
  · exact claim_C4.2.1 stC6 (.object []) (.object [("g", .bytes "2")]) []
      "g" (.bytes "1") (by decide)
  · exact claim_C4.2.2 stC6 chW [] "g" (.bytes "1") wC2flushed
      (by decide) (by decide) (by decide) (by decide) rfl

/-- A key with the `_end` suffix appended is never the key itself. -/
theorem append_end_ne (p : String) : ¬ p ++ "_end" = p := by
  intro h
  have h2 := congrArg String.length h
  rw [String.length_append] at h2
  have h3 : ("_end" : String).length = 4 := rfl
  omega

/-- Saving a kind never disturbs an already recorded kind. -/
theorem saveDateKind_preserve_some (kinds : List (String × String))
    (p p2 κ κ2 : String) (h : lookupKV kinds p = some κ) :
    lookupKV (saveDateKind kinds p2 κ2) p = some κ := by
  rw [saveDateKind]
  cases hl : lookupKV kinds p2 with
  | some x => exact h
  | none =>
    by_cases heq : p2 = p
    · rw [heq, h] at hl
      exact Option.noConfusion hl
    · rw [lookupKV_insert_ne _ _ _ _ heq]
      exact h

/-- Saving a kind at a different property leaves a lookup unchanged. -/
theorem saveDateKind_preserve_ne (kinds : List (String × String))
    (p p2 κ2 : String) (h : p2 ≠ p) :
    lookupKV (saveDateKind kinds p2 κ2) p = lookupKV kinds p := by
  rw [saveDateKind]
  cases hl : lookupKV kinds p2 with
  | some x => rfl
  | none => exact lookupKV_insert_ne _ _ _ _ h

/-- Recording into an empty slot stores the kind (first write wins). -/
theorem saveDateKind_record (kinds : List (String × String)) (p κ : String)
    (h : lookupKV kinds p = none) :
    lookupKV (saveDateKind kinds p κ) p = some κ := by
  rw [saveDateKind, h]
  exact lookupKV_insert_self _ _ _

/-- One ingress property step never overwrites a recorded kind. -/
theorem coercePropInto_preserve_some (ch : Chrono) (p2 fmt2 p κ : String)
    (ev : Value) (kinds : List (String × String))
    (h : lookupKV kinds p = some κ) :
    lookupKV (coercePropInto ch p2 fmt2 (ev, kinds)).2 p = some κ := by
  rw [coercePropInto]
  cases hg : ev.getKey p2 with
  | none => exact h
  | some v =>
    dsimp only
    cases hp : ch.parse fmt2 v.toStringLossy with
    | none =>
      dsimp only
      exact h
    | some d =>
      dsimp only
      exact saveDateKind_preserve_some kinds p p2 κ _ h

/-- A whole ingress pass never overwrites a recorded kind. -/
theorem coerceIntoFold_preserve_some (ch : Chrono)
    (L : List (String × String)) :
    ∀ (acc : Value × List (String × String)) (p κ : String),
    lookupKV acc.2 p = some κ →
    lookupKV ((L.foldl (fun acc pf => coercePropInto ch pf.1 pf.2 acc) acc)).2 p =
      some κ := by
  induction L with
  | nil =>
    intro acc p κ h
    exact h
  | cons pf rest ih =>
    intro acc p κ h
    rw [List.foldl_cons]
    obtain ⟨ev, kinds⟩ := acc
    exact ih _ p κ (coercePropInto_preserve_some ch pf.1 pf.2 p κ ev kinds h)

/-- An ingress property step at a different property changes neither the
event value nor the kind record at `p`. -/
theorem coercePropInto_skip (ch : Chrono) (p2 fmt2 p : String)
    (ev : Value) (kinds : List (String × String)) (h : p2 ≠ p) :
    (coercePropInto ch p2 fmt2 (ev, kinds)).1.getKey p = ev.getKey p ∧
    lookupKV (coercePropInto ch p2 fmt2 (ev, kinds)).2 p = lookupKV kinds p := by
  rw [coercePropInto]
  cases hg : ev.getKey p2 with
  | none => exact ⟨rfl, rfl⟩
  | some v =>
    dsimp only
    cases hp : ch.parse fmt2 v.toStringLossy with
    | none =>
      dsimp only
      exact ⟨rfl, rfl⟩
    | some d =>
      dsimp only
      exact ⟨getKey_insertKey_ne ev p2 p _ h,
        saveDateKind_preserve_ne kinds p p2 _ h⟩

/-- Ingress pairs at other properties do not touch `p`. -/
theorem coerceIntoFold_skip (ch : Chrono) (L : List (String × String))
    (p : String) (hL : ∀ pf ∈ L, pf.1 ≠ p) :
    ∀ (acc : Value × List (String × String)),
    (L.foldl (fun acc pf => coercePropInto ch pf.1 pf.2 acc) acc).1.getKey p =
      acc.1.getKey p ∧
    lookupKV ((L.foldl (fun acc pf => coercePropInto ch pf.1 pf.2 acc) acc)).2 p =
      lookupKV acc.2 p := by
  induction L with
  | nil =>
    intro acc
    exact ⟨rfl, rfl⟩
  | cons pf rest ih =>
    intro acc
    rw [List.foldl_cons]
    obtain ⟨ev, kinds⟩ := acc
    have hstep := coercePropInto_skip ch pf.1 pf.2 p ev kinds
      (hL pf (List.mem_cons_self _ _))
    have hrest := ih (fun pf2 hm => hL pf2 (List.mem_cons_of_mem _ hm))
      (coercePropInto ch pf.1 pf.2 (ev, kinds))
    exact ⟨hrest.1.trans hstep.1, hrest.2.trans hstep.2⟩

/-- Splitting a nodup `date_formats` key list around a property. -/
theorem dfSplit_not_mem (L1 L2 : List (String × String)) (p fmt : String)
    (hnd : (keysOf (L1 ++ (p, fmt) :: L2)).Nodup) :
    (∀ pf ∈ L1, pf.1 ≠ p) ∧ (∀ pf ∈ L2, pf.1 ≠ p) := by
  rw [keysOf_append, keysOf_cons] at hnd
  rcases List.nodup_append.mp hnd with ⟨h1, h2, hdisj⟩
  constructor
  · intro pf hm heq
    have hmm : pf.1 ∈ keysOf L1 := List.mem_map_of_mem Prod.fst hm
    rw [heq] at hmm
    exact hdisj hmm (List.mem_cons_self _ _)
  · intro pf hm heq
    have hmm : pf.1 ∈ keysOf L2 := List.mem_map_of_mem Prod.fst hm
    rw [heq] at hmm
    exact (List.nodup_cons.mp h2).1 hmm

/-- A whole ingress pass over a configuration containing `(p, fmt)`
records the runtime kind of the value at `p` when that value parses and
no kind was recorded yet. -/
theorem coerceInto_record (ch : Chrono) (L1 L2 : List (String × String))
    (p fmt : String)
    (hnd : (keysOf (L1 ++ (p, fmt) :: L2)).Nodup)
    (ev : Value) (kinds : List (String × String)) (v : Value) (d : Int)
    (hk : lookupKV kinds p = none)
    (hget : ev.getKey p = some v)
    (hparse : ch.parse fmt v.toStringLossy = some d) :
    lookupKV (coerceIntoTimestampIfNeeded ch (L1 ++ (p, fmt) :: L2) kinds
      ev).2 p = some v.kindStr := by
  obtain ⟨hL1, hL2⟩ := dfSplit_not_mem L1 L2 p fmt hnd
  rw [coerceIntoTimestampIfNeeded, if_neg (by simp)]
  rw [List.foldl_append, List.foldl_cons]
  have hskip := coerceIntoFold_skip ch L1 p hL1 (ev, kinds)
  set acc1 := L1.foldl (fun acc pf => coercePropInto ch pf.1 pf.2 acc) (ev, kinds)
  have hstep : lookupKV (coercePropInto ch p fmt acc1).2 p = some v.kindStr := by
    obtain ⟨ev1, kinds1⟩ := acc1
    rw [coercePropInto]
    dsimp only at hskip
    rw [hskip.1.trans hget]
    dsimp only
    rw [hparse]
    dsimp only
    exact saveDateKind_record kinds1 p v.kindStr (hskip.2.trans hk)
  exact coerceIntoFold_preserve_some ch L2 _ p v.kindStr hstep

/-- A whole ingress pass leaves the kind record at `p` unchanged when
the parse at `p` does not succeed on this event. -/
theorem coerceInto_skip_event (ch : Chrono) (L1 L2 : List (String × String))
    (p fmt : String)
    (hnd : (keysOf (L1 ++ (p, fmt) :: L2)).Nodup)
    (e : Value) (kinds : List (String × String))
    (hfail : parseFailsAt ch fmt p e = true) :
    lookupKV (coerceIntoTimestampIfNeeded ch (L1 ++ (p, fmt) :: L2) kinds
      e).2 p = lookupKV kinds p := by
  obtain ⟨hL1, hL2⟩ := dfSplit_not_mem L1 L2 p fmt hnd
  rw [coerceIntoTimestampIfNeeded, if_neg (by simp)]
  rw [List.foldl_append, List.foldl_cons]
  have hskip := coerceIntoFold_skip ch L1 p hL1 (e, kinds)
  set acc1 := L1.foldl (fun acc pf => coercePropInto ch pf.1 pf.2 acc) (e, kinds)
  have hstep : lookupKV (coercePropInto ch p fmt acc1).2 p = lookupKV kinds p := by
    obtain ⟨ev1, kinds1⟩ := acc1
    rw [coercePropInto]
    dsimp only at hskip
    rw [parseFailsAt] at hfail
    cases hg : e.getKey p with
    | none =>
      rw [hskip.1.trans hg]
      exact hskip.2
    | some v =>
      rw [hskip.1.trans hg]
      dsimp only
      rw [hg] at hfail
      dsimp only at hfail
      rw [Option.isNone_iff_eq_none] at hfail
      rw [hfail]
      exact hskip.2
  have hL2pres := coerceIntoFold_skip ch L2 p hL2 (coercePropInto ch p fmt acc1)
  exact hL2pres.2.trans hstep

/-- A whole ingress pass never overwrites a recorded kind (any config). -/
theorem coerceInto_preserve_some (ch : Chrono) (df : List (String × String))
    (e : Value) (kinds : List (String × String)) (p κ : String)
    (h : lookupKV kinds p = some κ) :
    lookupKV (coerceIntoTimestampIfNeeded ch df kinds e).2 p = some κ := by
  rw [coerceIntoTimestampIfNeeded]
  by_cases hdf : df = []
  · rw [if_pos hdf]
    exact h
  · rw [if_neg hdf]
    exact coerceIntoFold_preserve_some ch df (e, kinds) p κ h

/-- A run of ingress passes never overwrites a recorded kind. -/
theorem ingressKinds_preserve_some (ch : Chrono) (df : List (String × String))
    (evs : List Value) :
    ∀ (kinds : List (String × String)) (p κ : String),
    lookupKV kinds p = some κ →
    lookupKV (ingressKinds ch df kinds evs) p = some κ := by
  induction evs with
  | nil =>
    intro kinds p κ h
    exact h
  | cons e rest ih =>
    intro kinds p κ h
    rw [ingressKinds]
    exact ih _ p κ (coerceInto_preserve_some ch df e kinds p κ h)

/-- The first successfully parsed ingress value at `p` decides the
recorded kind for the whole run: events before it leave the slot empty,
the parsing event records the value's runtime kind, and nothing later
can overwrite it. -/
theorem ingressKinds_record (ch : Chrono) (L1 L2 : List (String × String))
    (p fmt : String)
    (hnd : (keysOf (L1 ++ (p, fmt) :: L2)).Nodup)
    (pre : List Value) (e : Value) (post : List Value) :
    ∀ (kinds0 : List (String × String)) (v : Value) (d : Int),
    lookupKV kinds0 p = none →
    (∀ e2 ∈ pre, parseFailsAt ch fmt p e2 = true) →
    e.getKey p = some v →
    ch.parse fmt v.toStringLossy = some d →
    lookupKV (ingressKinds ch (L1 ++ (p, fmt) :: L2) kinds0
      (pre ++ e :: post)) p = some v.kindStr := by
  induction pre with
  | nil =>
    intro kinds0 v d hk0 _ hget hparse
    rw [List.nil_append, ingressKinds]
    exact ingressKinds_preserve_some ch _ post _ p v.kindStr
      (coerceInto_record ch L1 L2 p fmt hnd e kinds0 v d hk0 hget hparse)
  | cons e2 rest ih =>
    intro kinds0 v d hk0 hpre hget hparse
    rw [List.cons_append, ingressKinds]
    refine ih _ v d ?_ (fun e3 hm => hpre e3 (List.mem_cons_of_mem _ hm))
      hget hparse
    rw [coerceInto_skip_event ch L1 L2 p fmt hnd e2 kinds0
      (hpre e2 (List.mem_cons_self _ _))]
    exact hk0

/-- A value with a readable key is an object. -/
theorem getKey_some_object (v : Value) (k : String) (w : Value)
    (h : v.getKey k = some w) : ∃ fs, v = .object fs := by
  cases v with
  | object fs => exact ⟨fs, rfl⟩
  | null => cases h
  | bool b => cases h
  | int i => cases h
  | bytes s => cases h
  | timestamp t => cases h
  | array xs => cases h

/-- The egress step on a property whose window endpoints are both
timestamps and whose recorded kind is `string` or `integer` rewrites
both endpoints to their egress rendering. -/
theorem coercePropFrom_writes (ch : Chrono) (dk : List (String × String))
    (p fmt : String) (mfs : List (String × Value)) (s t : Int) (κ : String)
    (hs : lookupKV mfs p = some (.timestamp s))
    (ht : lookupKV mfs (p ++ "_end") = some (.timestamp t))
    (hk : lookupKV dk p = some κ)
    (hκ : κ = "string" ∨ κ = "integer") :
    coercePropFrom ch dk p fmt (.object mfs) =
      some (((Value.object mfs).insertKey p (egressValue ch κ fmt s)).insertKey
        (p ++ "_end") (egressValue ch κ fmt t)) := by
  rw [coercePropFrom]
  dsimp only
  have hs2 : (Value.object mfs).getKey p = some (.timestamp s) := hs
  have ht2 : (Value.object mfs).getKey (p ++ "_end") = some (.timestamp t) := ht
  rw [hs2, ht2]
  dsimp only
  rw [hk]
  dsimp only
  cases hκ with
  | inl h =>
    subst h
    rw [if_pos rfl, egressValue, egressValue, if_pos rfl, if_pos rfl]
  | inr h =>
    subst h
    rw [if_neg (by decide), if_pos rfl, egressValue, egressValue,
      if_neg (by decide), if_neg (by decide)]

/-- The egress fold over a configuration containing `(p, fmt)` renders
the timestamp window at `p` according to the recorded kind, provided
the other configured properties do not interfere with `p` or its `_end`
sibling and the fold does not panic. -/
theorem coerceFold_roundtrip (ch : Chrono) (dk : List (String × String))
    (L1 L2 : List (String × String)) (p fmt : String)
    (hnd : (keysOf (L1 ++ (p, fmt) :: L2)).Nodup)
    (hinter : ∀ pf ∈ L1 ++ L2,
      ¬ pf.1 = p ++ "_end" ∧ ¬ pf.1 ++ "_end" = p ∧
        ¬ pf.1 ++ "_end" = p ++ "_end")
    (κ : String) (hκ : κ = "string" ∨ κ = "integer")
    (hk : lookupKV dk p = some κ)
    (mfs : List (String × Value)) (s t : Int) (res : Value)
    (hs : lookupKV mfs p = some (.timestamp s))
    (ht : lookupKV mfs (p ++ "_end") = some (.timestamp t))
    (hout : (L1 ++ (p, fmt) :: L2).foldl (coerceFromStep ch dk)
      (some (.object mfs)) = some res) :
    res.getKey p = some (egressValue ch κ fmt s) ∧
    res.getKey (p ++ "_end") = some (egressValue ch κ fmt t) := by
  obtain ⟨hL1, hL2⟩ := dfSplit_not_mem L1 L2 p fmt hnd
  rw [List.foldl_append, List.foldl_cons] at hout
  cases hmid1 : L1.foldl (coerceFromStep ch dk) (some (.object mfs)) with
  | none =>
    rw [hmid1] at hout
    dsimp only [coerceFromStep] at hout
    rw [coerceFold_none] at hout
    cases hout
  | some m1 =>
    have hm1p : m1.getKey p = some (.timestamp s) :=
      (coerceFold_preserves ch dk L1 p
        (fun pf hm => ⟨hL1 pf hm, (hinter pf (List.mem_append_left _ hm)).2.1⟩)
        (.object mfs) m1 hmid1).trans hs
    have hm1e : m1.getKey (p ++ "_end") = some (.timestamp t) :=
      (coerceFold_preserves ch dk L1 (p ++ "_end")
        (fun pf hm => ⟨(hinter pf (List.mem_append_left _ hm)).1,
          (hinter pf (List.mem_append_left _ hm)).2.2⟩)
        (.object mfs) m1 hmid1).trans ht
    obtain ⟨m1fs, rfl⟩ := getKey_some_object m1 p _ hm1p
    rw [hmid1] at hout
    dsimp only [coerceFromStep] at hout
    rw [coercePropFrom_writes ch dk p fmt m1fs s t κ hm1p hm1e hk hκ] at hout
    have hres := coerceFold_preserves ch dk L2 p
      (fun pf hm => ⟨hL2 pf hm, (hinter pf (List.mem_append_right _ hm)).2.1⟩)
      _ res hout
    have hrese := coerceFold_preserves ch dk L2 (p ++ "_end")
      (fun pf hm => ⟨(hinter pf (List.mem_append_right _ hm)).1,
        (hinter pf (List.mem_append_right _ hm)).2.2⟩)
      _ res hout
    constructor
    · rw [hres, Value.insertKey, Value.insertKey, Value.getKey,
        lookupKV_insert_ne _ _ _ _ (append_end_ne p), lookupKV_insert_self]
    · rw [hrese, Value.insertKey, Value.insertKey, Value.getKey,
        lookupKV_insert_self]

/-- Lifting the egress round trip through
`coerce_from_timestamp_if_needed` on the flushed outer event. -/
theorem coerceFrom_roundtrip (st : ReduceState) (ch : Chrono)
    (dk : List (String × String)) (L1 L2 : List (String × String))
    (p fmt : String)
    (hdf : st.dateFormats = L1 ++ (p, fmt) :: L2)
    (hnd : (keysOf (L1 ++ (p, fmt) :: L2)).Nodup)
    (hinter : ∀ pf ∈ L1 ++ L2,
      ¬ pf.1 = p ++ "_end" ∧ ¬ pf.1 ++ "_end" = p ∧
        ¬ pf.1 ++ "_end" = p ++ "_end")
    (κ : String) (hκ : κ = "string" ∨ κ = "integer")
    (hk : lookupKV dk p = some κ)
    (ev out msgVal : Value) (s t : Int)
    (hmsg : ev.getKey "message" = some msgVal)
    (hs : msgVal.getKey p = some (.timestamp s))
    (ht : msgVal.getKey (p ++ "_end") = some (.timestamp t))
    (hout : st.coerceFromTimestampIfNeeded ch dk ev = some out) :
    (out.getKey "message").bind (fun m => m.getKey p) =
      some (egressValue ch κ fmt s) ∧
    (out.getKey "message").bind (fun m => m.getKey (p ++ "_end")) =
      some (egressValue ch κ fmt t) := by
  obtain ⟨mfs, rfl⟩ := getKey_some_object msgVal p _ hs
  obtain ⟨evfs, rfl⟩ := getKey_some_object ev "message" _ hmsg
  rw [ReduceState.coerceFromTimestampIfNeeded, hdf, if_neg (by simp),
    hmsg] at hout
  dsimp only at hout
  cases hfold : (L1 ++ (p, fmt) :: L2).foldl (coerceFromStep ch dk)
      (some (.object mfs)) with
  | none =>
    rw [hfold] at hout
    cases hout
  | some res =>
    rw [hfold] at hout
    dsimp only at hout
    cases hout
    have hrt := coerceFold_roundtrip ch dk L1 L2 p fmt hnd hinter κ hκ hk
      mfs s t res hs ht hfold
    rw [getKey_insertKey_obj]
    exact ⟨hrt.1, hrt.2⟩

/-- C5: for a configured `date_formats` property `p`, the ingress pass
records the runtime kind of the first value at `p` that parses (events
before it failing to parse, later events unable to overwrite), and at
egress a timestamp window at `p` is rendered back according to that
recorded kind: a string ingress yields formatted strings at `p` and
`p_end`, an integer ingress yields integers when the formatted output
parses as `i64` and the formatted string otherwise — provided the other
configured properties do not collide with `p` or `p_end` and the egress
pass does not panic. -/
theorem claim_C5 (ch : Chrono) (L1 L2 : List (String × String))
    (p fmt : String) (kinds0 : List (String × String))
    (pre post : List Value) (e v : Value) (d : Int)
    (hnd : (keysOf (L1 ++ (p, fmt) :: L2)).Nodup)
    (hinter : ∀ pf ∈ L1 ++ L2,
      ¬ pf.1 = p ++ "_end" ∧ ¬ pf.1 ++ "_end" = p ∧
        ¬ pf.1 ++ "_end" = p ++ "_end")
    (hk0 : lookupKV kinds0 p = none)
    (hpre : ∀ e2 ∈ pre, parseFailsAt ch fmt p e2 = true)
    (hev : e.getKey p = some v)
    (hparse : ch.parse fmt v.toStringLossy = some d)
    (hκ : v.kindStr = "string" ∨ v.kindStr = "integer") :
    lookupKV (ingressKinds ch (L1 ++ (p, fmt) :: L2) kinds0
      (pre ++ e :: post)) p = some v.kindStr ∧
    (∀ (st : ReduceState), st.dateFormats = L1 ++ (p, fmt) :: L2 →
      ∀ (ev out msgVal : Value) (s t : Int),
      ev.getKey "message" = some msgVal →
      msgVal.getKey p = some (.timestamp s) →
      msgVal.getKey (p ++ "_end") = some (.timestamp t) →
      st.coerceFromTimestampIfNeeded ch
        (ingressKinds ch (L1 ++ (p, fmt) :: L2) kinds0 (pre ++ e :: post))
        ev = some out →
      (out.getKey "message").bind (fun m => m.getKey p) =
        some (egressValue ch v.kindStr fmt s) ∧
      (out.getKey "message").bind (fun m => m.getKey (p ++ "_end")) =
        some (egressValue ch v.kindStr fmt t)) := by
  have hrec := ingressKinds_record ch L1 L2 p fmt hnd pre e post kinds0 v d
    hk0 hpre hev hparse
  refine ⟨hrec, ?_⟩
  intro st hdf ev out msgVal s t hmsg hs ht hout
  exact coerceFrom_roundtrip st ch _ L1 L2 p fmt hdf hnd hinter
    v.kindStr hκ hrec ev out msgVal s t hmsg hs ht hout

/-- C5 witness: the string `100` at `ts` parses with `%s`, records kind
`string`, and the flushed window `(100, 200)` comes back as the strings
`100` and `200`. -/
theorem claim_C5_witness :
    lookupKV (ingressKinds chW [("ts", "%s")] [] ([] ++ evC5in :: []))
      "ts" = some "string" ∧
    (outC5.getKey "message").bind (fun m => m.getKey "ts") =
      some (egressValue chW "string" "%s" 100) ∧
    (outC5.getKey "message").bind (fun m => m.getKey ("ts" ++ "_end")) =
      some (egressValue chW "string" "%s" 200) := by
  have h := claim_C5 chW [] [] "ts" "%s" [] [] [] evC5in (.bytes "100") 100
    (by decide) (by intro pf hm; cases hm) rfl (by intro e2 hm; cases hm)
    rfl (by decide) (Or.inl rfl)
  have h2 := h.2 stC5 rfl evC5flush outC5 msgC5 100 200 rfl rfl rfl (by decide)
  exact ⟨h.1, h2.1, h2.2⟩

/-! Lemmas for the expiration sweep (C3): the sorted insertion, the
erase loop and the size accumulation of `flush_into`. -/

/-- `insertByStartedAt` inserts, up to permutation. -/
theorem insertByStartedAt_perm (ds : Discriminant × ReduceState) :
    ∀ (l : List (Discriminant × ReduceState)),
    List.Perm (insertByStartedAt ds l) (ds :: l) := by
  intro l
  induction l with
  | nil => exact List.Perm.refl _
  | cons x xs ih =>
    rw [insertByStartedAt]
    by_cases h : ds.2.startedAt < x.2.startedAt
    · rw [if_pos h]
    · rw [if_neg h]
      exact (ih.cons x).trans (List.Perm.swap ds x xs)

/-- The insertion-sort fold permutes its input. -/
theorem sortFold_perm :
    ∀ (l acc : List (Discriminant × ReduceState)),
    List.Perm (l.foldl (fun a ds => insertByStartedAt ds a) acc) (l ++ acc) := by
  intro l
  induction l with
  | nil => intro acc; exact List.Perm.refl _
  | cons x xs ih =>
    intro acc
    rw [List.foldl_cons, List.cons_append]
    exact (ih _).trans ((List.Perm.append_left xs
      (insertByStartedAt_perm x acc)).trans List.perm_middle)

/-- Sorting by `started_at` permutes the states. -/
theorem sortByStartedAt_perm (l : List (Discriminant × ReduceState)) :
    List.Perm (sortByStartedAt l) l := by
  rw [sortByStartedAt]
  have h := sortFold_perm l []
  rw [List.append_nil] at h
  exact h

/-- Under distinct keys, every member is found by lookup. -/
theorem lookupKV_of_mem_nodup {α β : Type} [DecidableEq α] :
    ∀ (l : List (α × β)) (kv : α × β), (keysOf l).Nodup → kv ∈ l →
    lookupKV l kv.1 = some kv.2 := by
  intro l
  induction l with
  | nil => intro kv _ hm; cases hm
  | cons x xs ih =>
    intro kv hnd hm
    obtain ⟨k, v⟩ := x
    rw [keysOf_cons] at hnd
    cases hm with
    | head =>
      rw [lookupKV, if_pos rfl]
    | tail _ hm2 =>
      have hne : ¬ k = kv.1 := by
        intro heq
        have hmm : kv.1 ∈ keysOf xs := List.mem_map_of_mem Prod.fst hm2
        rw [← heq] at hmm
        exact (List.nodup_cons.mp hnd).1 hmm
      rw [lookupKV, if_neg hne]
      exact ih kv (List.nodup_cons.mp hnd).2 hm2

/-- Erasing a key keeps the key list a sublist. -/
theorem keysOf_eraseKV_sublist {α β : Type} [DecidableEq α] :
    ∀ (l : List (α × β)) (k : α),
    List.Sublist (keysOf (eraseKV l k)) (keysOf l) := by
  intro l
  induction l with
  | nil => intro k; exact List.Sublist.refl _
  | cons x xs ih =>
    intro k
    obtain ⟨k2, v⟩ := x
    rw [eraseKV, keysOf_cons]
    by_cases h : k2 = k
    · rw [if_pos h]
      exact List.sublist_cons_self _ _
    · rw [if_neg h, keysOf_cons]
      exact (ih k).cons₂ k2

/-- Under distinct keys, erasing a key is filtering it out. -/
theorem eraseKV_eq_filter {α β : Type} [DecidableEq α] :
    ∀ (l : List (α × β)) (k : α), (keysOf l).Nodup →
    eraseKV l k = l.filter (fun kv => decide (¬ kv.1 = k)) := by
  intro l
  induction l with
  | nil => intro k _; rfl
  | cons x xs ih =>
    intro k hnd
    obtain ⟨k2, v⟩ := x
    rw [keysOf_cons] at hnd
    rw [eraseKV, List.filter_cons]
    by_cases h : k2 = k
    · rw [if_pos h]
      have hcond : (decide (¬ ((k2, v) : α × β).1 = k)) = false := by
        simp [h]
      rw [hcond]
      simp only [Bool.false_eq_true, if_false]
      symm
      apply List.filter_eq_self.mpr
      intro kv hm
      simp only [decide_eq_true_eq]
      intro heq
      have hmm : kv.1 ∈ keysOf xs := List.mem_map_of_mem Prod.fst hm
      rw [heq, ← h] at hmm
      exact (List.nodup_cons.mp hnd).1 hmm
    · rw [if_neg h]
      have hcond : (decide (¬ ((k2, v) : α × β).1 = k)) = true := by
        simp [h]
      rw [hcond]
      simp only [if_true]
      rw [ih k (List.nodup_cons.mp hnd).2]

/-- Under distinct keys, the sequential erase loop filters out exactly
the listed keys. -/
theorem eraseAll_eq_filter {α β : Type} [DecidableEq α] :
    ∀ (D : List α) (S : List (α × β)), (keysOf S).Nodup →
    D.foldl (fun s k => eraseKV s k) S =
      S.filter (fun kv => decide (¬ kv.1 ∈ D)) := by
  intro D
  induction D with
  | nil =>
    intro S _
    rw [List.foldl_nil]
    symm
    apply List.filter_eq_self.mpr
    intro kv _
    simp
  | cons k D2 ih =>
    intro S hnd
    rw [List.foldl_cons,
      ih (eraseKV S k) (List.Nodup.sublist (keysOf_eraseKV_sublist S k) hnd),
      eraseKV_eq_filter S k hnd, List.filter_filter]
    apply List.filter_congr
    intro kv _
    simp [List.mem_cons, not_or, Bool.and_comm]

/-- Filtering can only shrink a sum of naturals. -/
theorem sum_filter_le {α : Type} (P : α → Bool) (f : α → Nat) :
    ∀ (l : List α), ((l.filter P).map f).sum ≤ (l.map f).sum := by
  intro l
  induction l with
  | nil => simp
  | cons x xs ih =>
    rw [List.filter_cons]
    by_cases h : P x = true
    · rw [if_pos h, List.map_cons, List.map_cons, List.sum_cons, List.sum_cons]
      omega
    · rw [if_neg h, List.map_cons, List.sum_cons]
      omega

/-- One scan step is the pair of its independent components. -/
theorem flushScanStep_eq (r : Reducer) (now : Nat)
    (acc : List (Nat × Discriminant) × Nat) (ds : Discriminant × ReduceState) :
    flushScanStep r now acc ds =
      ((if staleOrBig r now ds then btreeInsert acc.1 ds.2.startedAt ds.1
          else acc.1),
       (if staleOrBig r now ds then acc.2
          else wAdd acc.2 ds.2.sizeEstimate)) := by
  rw [flushScanStep, staleOrBig]
  by_cases h1 : r.expireAfter ≤ now - ds.2.startedAt
  · rw [if_pos h1]
    simp [h1]
  · rw [if_neg h1]
    by_cases h2 : r.byteThresholdPerState < ds.2.sizeEstimate
    · rw [if_pos h2]
      simp [h1, h2]
    · rw [if_neg h2]
      simp [h1, h2]

/-- The scan fold splits into the flush-set fold and the size fold. -/
theorem flushScan_split (r : Reducer) (now : Nat) :
    ∀ (L : List (Discriminant × ReduceState))
      (b : List (Nat × Discriminant)) (t : Nat),
    L.foldl (flushScanStep r now) (b, t) =
      (L.foldl (fun b2 ds => if staleOrBig r now ds then
          btreeInsert b2 ds.2.startedAt ds.1 else b2) b,
       L.foldl (fun t2 ds => if staleOrBig r now ds then t2 else
          wAdd t2 ds.2.sizeEstimate) t) := by
  intro L
  induction L with
  | nil => intro b t; rfl
  | cons ds rest ih =>
    intro b t
    rw [List.foldl_cons, List.foldl_cons, List.foldl_cons, flushScanStep_eq]
    exact ih _ _

/-- On a fresh `started_at` key, the `BTreeMap` insert is the projection
of the sorted-list insert. -/
theorem btreeInsert_proj (ds : Discriminant × ReduceState) :
    ∀ (acc : List (Discriminant × ReduceState)),
    ds.2.startedAt ∉ acc.map (fun x => x.2.startedAt) →
    btreeInsert (acc.map (fun x => (x.2.startedAt, x.1))) ds.2.startedAt ds.1 =
      (insertByStartedAt ds acc).map (fun x => (x.2.startedAt, x.1)) := by
  intro acc
  induction acc with
  | nil => intro _; rfl
  | cons x xs ih =>
    intro hmem
    simp only [List.map_cons, List.mem_cons, not_or] at hmem
    obtain ⟨hne, hmem2⟩ := hmem
    simp only [List.map_cons]
    rw [btreeInsert, insertByStartedAt]
    by_cases h1 : ds.2.startedAt < x.2.startedAt
    · rw [if_pos h1, if_pos h1]
      simp only [List.map_cons]
    · rw [if_neg h1, if_neg hne, if_neg h1]
      simp only [List.map_cons]
      rw [ih hmem2]

/-- The flush-set accumulated by the scan is the projection of the
insertion sort of the stale / over-threshold states, provided the
`started_at` values are pairwise distinct. -/
theorem scanB_eq (r : Reducer) (now : Nat) :
    ∀ (L acc : List (Discriminant × ReduceState)),
    (L.map (fun ds => ds.2.startedAt) ++
      acc.map (fun ds => ds.2.startedAt)).Nodup →
    L.foldl (fun b2 ds => if staleOrBig r now ds then
        btreeInsert b2 ds.2.startedAt ds.1 else b2)
      (acc.map (fun x => (x.2.startedAt, x.1))) =
    ((L.filter (staleOrBig r now)).foldl
      (fun a ds => insertByStartedAt ds a) acc).map
        (fun x => (x.2.startedAt, x.1)) := by
  intro L
  induction L with
  | nil => intro acc _; rfl
  | cons ds rest ih =>
    intro acc hnd
    simp only [List.map_cons, List.cons_append] at hnd
    rw [List.foldl_cons, List.filter_cons]
    by_cases h : staleOrBig r now ds = true
    · rw [if_pos h, if_pos h, List.foldl_cons]
      have hnotin : ds.2.startedAt ∉ acc.map (fun x => x.2.startedAt) := by
        intro hm
        exact (List.nodup_cons.mp hnd).1 (List.mem_append_right _ hm)
      rw [btreeInsert_proj ds acc hnotin]
      apply ih
      have h1 := List.Perm.append_left (rest.map (fun ds => ds.2.startedAt))
        ((insertByStartedAt_perm ds acc).map (fun ds => ds.2.startedAt))
      rw [List.map_cons] at h1
      have h2 := h1.trans List.perm_middle
      exact h2.nodup_iff.mpr hnd
    · rw [if_neg h, if_neg h]
      apply ih
      exact (List.nodup_cons.mp hnd).2

/-- The size accumulated by the scan is the (wrapped) sum of the sizes
of the states left out of the flush set. -/
theorem scanT_eq (r : Reducer) (now : Nat) :
    ∀ (L : List (Discriminant × ReduceState)) (t : Nat), t < W →
    L.foldl (fun t2 ds => if staleOrBig r now ds then t2 else
        wAdd t2 ds.2.sizeEstimate) t =
      (t + ((L.filter (fun ds => !staleOrBig r now ds)).map
        (fun ds => ds.2.sizeEstimate)).sum) % W := by
  intro L
  induction L with
  | nil =>
    intro t ht
    simp [Nat.mod_eq_of_lt ht]
  | cons ds rest ih =>
    intro t ht
    rw [List.foldl_cons, List.filter_cons]
    by_cases h : staleOrBig r now ds = true
    · rw [if_pos h, if_neg (by rw [h]; simp)]
      exact ih t ht
    · have hb : staleOrBig r now ds = false := by
        revert h
        cases staleOrBig r now ds <;> simp
      rw [if_neg h, if_pos (by rw [hb]; rfl), List.map_cons, List.sum_cons,
        ih (wAdd t ds.2.sizeEstimate) (wAdd_lt _ _), wAdd,
        Nat.mod_add_mod, Nat.add_assoc]

/-- A panicked stale-flush loop stays panicked. -/
theorem staleFold_none (ch : Chrono) (dk : List (String × String)) :
    ∀ (L : List (Nat × Discriminant)),
    L.foldl (staleFlushStep ch dk) none = none := by
  intro L
  induction L with
  | nil => rfl
  | cons kd rest ih =>
    rw [List.foldl_cons, staleFlushStep_none_eq]
    exact ih

/-- The stale-flush loop over the projected flush list: each listed
state is found, flushed and erased in order, so the loop equals the
sequential flush of the list (panic propagating), the erase of all its
discriminants, and one stale signal per flushed event. -/
theorem staleLoop_go (ch : Chrono) (dk : List (String × String)) :
    ∀ (Fl S : List (Discriminant × ReduceState))
      (out : List (Value × Bool)) (tele : List Telemetry),
    (keysOf S).Nodup →
    (∀ ds ∈ Fl, lookupKV S ds.1 = some ds.2) →
    (keysOf Fl).Nodup →
    (Fl.map (fun x => (x.2.startedAt, x.1))).foldl (staleFlushStep ch dk)
      (some (S, out, tele)) =
      match mapFlushOpt ch dk Fl with
      | none => none
      | some evs =>
        some ((keysOf Fl).foldl (fun s k => eraseKV s k) S,
          out ++ evs.map (fun e => (e, true)),
          tele ++ evs.map (fun _ => Telemetry.reduceStaleEventFlushed)) := by
  intro Fl
  induction Fl with
  | nil =>
    intro S out tele _ _ _
    simp [mapFlushOpt, keysOf]
  | cons ds rest ih =>
    intro S out tele hndS hmem hndF
    rw [keysOf_cons] at hndF
    have hlook : lookupKV S ds.1 = some ds.2 :=
      hmem ds (List.mem_cons_self _ _)
    simp only [List.map_cons, List.foldl_cons]
    cases hf : ds.2.flush ch dk with
    | none =>
      rw [staleFlushStep_panic ch dk S out tele _ ds.2 hlook hf,
        staleFold_none]
      rw [mapFlushOpt, hf]
    | some ev =>
      rw [staleFlushStep_hit ch dk S out tele _ ds.2 ev hlook hf]
      rw [ih (eraseKV S ds.1) (out ++ [(ev, true)])
        (tele ++ [Telemetry.reduceStaleEventFlushed])
        (List.Nodup.sublist (keysOf_eraseKV_sublist S ds.1) hndS)
        (fun ds2 hm => by
          rw [lookupKV_erase_ne S ds.1 ds2.1 (fun heq => (List.nodup_cons.mp
            hndF).1 (heq ▸ List.mem_map_of_mem Prod.fst hm))]
          exact hmem ds2 (List.mem_cons_of_mem _ hm))
        (List.nodup_cons.mp hndF).2]
      rw [mapFlushOpt, hf]
      cases hrest : mapFlushOpt ch dk rest with
      | none => rfl
      | some evs =>
        simp [keysOf_cons]

/-- The flush-everything fold is the sequential flush of the list. -/
theorem flushAllFold (ch : Chrono) (dk : List (String × String)) :
    ∀ (L : List (Discriminant × ReduceState)) (out0 : List Value),
    L.foldl (flushAllStep ch dk) (some out0) =
      (mapFlushOpt ch dk L).map (fun l => out0 ++ l) := by
  intro L
  induction L with
  | nil =>
    intro out0
    simp [mapFlushOpt]
  | cons ds rest ih =>
    intro out0
    rw [List.foldl_cons, mapFlushOpt]
    cases hf : ds.2.flush ch dk with
    | none =>
      dsimp only [flushAllStep]
      rw [hf]
      dsimp only
      have hnone : ∀ (L2 : List (Discriminant × ReduceState)),
          L2.foldl (flushAllStep ch dk) none = none := by
        intro L2
        induction L2 with
        | nil => rfl
        | cons x xs ih2 => rw [List.foldl_cons]; exact ih2
      rw [hnone]
      rfl
    | some ev =>
      dsimp only [flushAllStep]
      rw [hf]
      dsimp only
      rw [ih (out0 ++ [ev])]
      cases hrest : mapFlushOpt ch dk rest with
      | none => rfl
      | some evs => simp

/-- C3 counterexample: two stale states that share `started_at` collide
in the `BTreeMap<Instant, Discriminant>` flush set, so the sweep
flushes only one of them and the other silently survives, where the
claim demands that exactly the stale states are removed and emitted. -/
theorem claim_C3_counterexample :
    (rC3.flushInto 10 chW).map
      (fun x => (x.2.1.length, x.1.states.length)) = some (1, 1) ∧
    (flushIntoSpec rC3 10 chW).map
      (fun x => (x.2.1.length, x.1.states.length)) = some (2, 0) := by
  constructor
  · decide
  · decide

/-- C3 (amended): when the live states carry pairwise-distinct
discriminants and pairwise-distinct `started_at` instants and the total
size fits in `usize`, the sweep behaves exactly as the claim says:
`flush_into` equals the specification-side sweep — stale /
over-threshold states flushed in ascending `started_at` order with a
stale signal each, then, if the remaining sizes exceed the aggregate
threshold, everything remaining flushed in ascending `started_at` order
without the signal and the map cleared. -/
theorem claim_C3_amended (r : Reducer) (now : Nat) (ch : Chrono)
    (hdn : (keysOf r.states).Nodup)
    (hsn : (r.states.map (fun ds => ds.2.startedAt)).Nodup)
    (hsz : (r.states.map (fun ds => ds.2.sizeEstimate)).sum < W) :
    r.flushInto now ch = flushIntoSpec r now ch := by
  have hsub : ((r.states.filter (fun ds => !staleOrBig r now ds)).map
      (fun ds => ds.2.sizeEstimate)).sum < W :=
    Nat.lt_of_le_of_lt (sum_filter_le _ _ _) hsz
  have hscanB : (flushScan r now).1 =
      (sortByStartedAt (r.states.filter (staleOrBig r now))).map
        (fun x => (x.2.startedAt, x.1)) := by
    rw [flushScan, flushScan_split]
    have h := scanB_eq r now r.states [] (by simpa using hsn)
    rw [sortByStartedAt]
    simpa using h
  have hscanT : (flushScan r now).2 =
      ((r.states.filter (fun ds => !staleOrBig r now ds)).map
        (fun ds => ds.2.sizeEstimate)).sum := by
    rw [flushScan, flushScan_split]
    have h := scanT_eq r now r.states 0 wPos
    rw [Nat.zero_add, Nat.mod_eq_of_lt hsub] at h
    simpa using h
  have hFmem : ∀ ds ∈ sortByStartedAt (r.states.filter (staleOrBig r now)),
      lookupKV r.states ds.1 = some ds.2 := by
    intro ds hm
    have hm2 : ds ∈ r.states.filter (staleOrBig r now) :=
      (sortByStartedAt_perm _).mem_iff.mp hm
    exact lookupKV_of_mem_nodup r.states ds hdn (List.mem_of_mem_filter hm2)
  have hndFl : (keysOf (sortByStartedAt
      (r.states.filter (staleOrBig r now)))).Nodup := by
    have hperm : List.Perm
        (keysOf (sortByStartedAt (r.states.filter (staleOrBig r now))))
        (keysOf (r.states.filter (staleOrBig r now))) :=
      (sortByStartedAt_perm _).map Prod.fst
    apply hperm.nodup_iff.mpr
    exact List.Nodup.sublist
      (List.Sublist.map Prod.fst (List.filter_sublist _)) hdn
  have hKeq : (keysOf (sortByStartedAt
        (r.states.filter (staleOrBig r now)))).foldl
      (fun s k => eraseKV s k) r.states =
      r.states.filter (fun ds => !(staleOrBig r now ds)) := by
    rw [eraseAll_eq_filter _ _ hdn]
    apply List.filter_congr
    intro ds hmS
    by_cases hP : staleOrBig r now ds = true
    · have hmemK : ds.1 ∈ keysOf (sortByStartedAt
          (r.states.filter (staleOrBig r now))) := by
        apply List.mem_map_of_mem Prod.fst
        exact (sortByStartedAt_perm _).mem_iff.mpr
          (List.mem_filter.mpr ⟨hmS, hP⟩)
      simp [hmemK, hP]
    · have hb : staleOrBig r now ds = false := by
        revert hP
        cases staleOrBig r now ds <;> simp
      have hnm : ds.1 ∉ keysOf (sortByStartedAt
          (r.states.filter (staleOrBig r now))) := by
        intro hm
        obtain ⟨ds2, hm2, hkey⟩ := List.mem_map.mp hm
        have hm2F : ds2 ∈ r.states.filter (staleOrBig r now) :=
          (sortByStartedAt_perm _).mem_iff.mp hm2
        have hds2S : ds2 ∈ r.states := List.mem_of_mem_filter hm2F
        have hP2 : staleOrBig r now ds2 = true := List.of_mem_filter hm2F
        have h1 := lookupKV_of_mem_nodup r.states ds hdn hmS
        have h2 := lookupKV_of_mem_nodup r.states ds2 hdn hds2S
        rw [hkey, h1] at h2
        injection h2 with h22
        have hds : ds = ds2 := Prod.ext_iff.mpr ⟨hkey.symm, h22⟩
        rw [hds, hP2] at hb
        cases hb
      simp [hnm, hb]
  rw [Reducer.flushInto, flushIntoSpec]
  dsimp only
  rw [hscanB, hscanT, staleFlushLoop,
    staleLoop_go ch r.dateKinds _ r.states [] [] hdn hFmem hndFl]
  cases hm : mapFlushOpt ch r.dateKinds
      (sortByStartedAt (r.states.filter (staleOrBig r now))) with
  | none => rfl
  | some evs =>
    dsimp only
    rw [hKeq]
    by_cases hth : r.byteThresholdAllStates <
        ((r.states.filter (fun ds => !staleOrBig r now ds)).map
          (fun ds => ds.2.sizeEstimate)).sum
    · rw [if_pos hth, if_pos hth, Reducer.flushAllInto]
      dsimp only
      rw [flushAllFold]
      cases hk2 : mapFlushOpt ch r.dateKinds (sortByStartedAt
          (r.states.filter (fun ds => !(staleOrBig r now ds)))) with
      | none => rfl
      | some keepEvs => simp
    · rw [if_neg hth, if_neg hth]
      simp

/-- C3 witness for the amended sweep: one live state (distinct
discriminant and `started_at`, small size), swept stale at `now =
50000`. -/
theorem claim_C3_witness :
    (keysOf wC2r.states).Nodup ∧
    (wC2r.states.map (fun ds => ds.2.startedAt)).Nodup ∧
    (wC2r.states.map (fun ds => ds.2.sizeEstimate)).sum < W ∧
    wC2r.flushInto 50000 chW = flushIntoSpec wC2r 50000 chW :=
  ⟨by decide, by decide, by decide,
    claim_C3_amended wC2r 50000 chW (by decide) (by decide) (by decide)⟩

end MezmoReduce
